import Mathlib

/-!
Verification of the AOC 2015 Day 07 wire-evaluation subsystem (`src/bin/day07.rs`).

The Rust source keeps a `HashMap<String, Operation>` of wire definitions (the
Definition Store) and a `HashMap<String, u16>` of already-computed values (the
Resolution Cache), and resolves a target wire by mutually recursive functions
`determine_target_wire_value_recursive`, `evaluate_wire_value` and
`get_term_value`.

Embedding choices:
* `u16` values are `Nat`, masked with `% 65536` where the Rust arithmetic wraps.
* both hash maps become association lists (`List (String × _)`); `HashMap::get`
  is first-match lookup and `HashMap::insert` is `cons` (which shadows any
  older binding, observably identical to overwriting under first-match lookup).
* the two panic sites become an `Except` error: `EvalErr.missingDefinition`
  models the `.unwrap()` panic on a wire absent from the store (day07.rs line
  157), and `EvalErr.shiftOverflow` models the debug-mode `attempt to shift
  with overflow` panic of `<<` / `>>` when the shift amount is ≥ 16 (lines
  167, 172) — the semantics exercised by the crate's own `cargo test` runs.
* the unbounded mutual recursion of the source (which diverges on cyclic
  stores) becomes structural recursion on an explicit fuel parameter; `none`
  means the fuel ran out (divergence), `some` is a terminating outcome.
-/

namespace Day07

/-- Value accumulated by folding decimal digit characters, as Rust's
`str::parse::<u16>` does digit by digit (we fold over `Nat` and compare with
the `u16` bound at the end, which yields the same acceptance set). -/
def charDigitVal (c : Char) : Nat := c.toNat - 48

/-- Fold a list of decimal digit characters onto an accumulator. -/
def decValFold (cs : List Char) (a : Nat) : Nat :=
  cs.foldl (fun acc c => acc * 10 + charDigitVal c) a

/-- Model of Rust's `str::parse::<u16>()`: an optional leading plus sign, then
one or more ASCII decimal digits, with the resulting value at most 65535;
anything else is a parse failure. -/
def parseU16 (s : String) : Option Nat :=
  let cs : List Char :=
    match s.data with
    | c :: rest => if c = '+' then rest else c :: rest
    | [] => []
  if cs = [] then none
  else if cs.all Char.isDigit then
    if decValFold cs 0 < 65536 then some (decValFold cs 0) else none
  else none

/-- Mirror of the Rust `enum Operation` (day07.rs lines 21-29): each payload
field is the raw term string from the input, either a decimal literal or the
name of another wire. -/
inductive Operation : Type
  | value (left : String)
  | and (left right : String)
  | lshift (left right : String)
  | rshift (left right : String)
  | not (left : String)
  | or (left right : String)
  deriving DecidableEq

/-- Definition Store: wire name to the operation feeding it. -/
abbrev Store := List (String × Operation)

/-- Resolution Cache: wire name to its already-computed 16-bit value. -/
abbrev Cache := List (String × Nat)

/-- Terminating abort causes of a resolution pass, mirroring the two panic
sites of the Rust source: `missingDefinition` is the `.unwrap()` panic on a
wire with no store entry, `shiftOverflow` the debug-mode panic of a shift by
16 or more. -/
inductive EvalErr : Type
  | missingDefinition (wire : String)
  | shiftOverflow
  deriving DecidableEq

/-- Outcome of a fueled evaluation step: `none` is fuel exhaustion
(divergence of the unbounded Rust recursion), `some (Except.error e)` a panic,
`some (Except.ok (v, cache))` a computed value together with the updated
Resolution Cache. -/
abbrev EvalResult := Option (Except EvalErr (Nat × Cache))

mutual

/-- Mirror of `determine_target_wire_value_recursive` (day07.rs lines
135-149): return the cached value if present, otherwise evaluate the wire's
operation and record the result in the cache. -/
def determine_target_wire_value_recursive : Nat → String → Store → Cache → EvalResult
  | 0, _, _, _ => none
  | fuel + 1, target_wire, wire_ops, wire_values =>
    match wire_values.lookup target_wire with
    | some v => some (Except.ok (v, wire_values))
    | none =>
      match evaluate_wire_value fuel wire_ops target_wire wire_values with
      | none => none
      | some (Except.error e) => some (Except.error e)
      | some (Except.ok (v, wv)) => some (Except.ok (v, (target_wire, v) :: wv))

/-- Mirror of `evaluate_wire_value` (day07.rs lines 152-184): look the wire up
in the store (panicking when absent) and combine the operand values according
to the operation, with Rust `u16` semantics. -/
def evaluate_wire_value : Nat → Store → String → Cache → EvalResult
  | 0, _, _, _ => none
  | fuel + 1, wire_ops, wire, wire_values =>
    match wire_ops.lookup wire with
    | none => some (Except.error (EvalErr.missingDefinition wire))
    | some (Operation.value left) => get_term_value fuel left wire_ops wire_values
    | some (Operation.and left right) =>
      match get_term_value fuel left wire_ops wire_values with
      | none => none
      | some (Except.error e) => some (Except.error e)
      | some (Except.ok (l, wv1)) =>
        match get_term_value fuel right wire_ops wv1 with
        | none => none
        | some (Except.error e) => some (Except.error e)
        | some (Except.ok (r, wv2)) => some (Except.ok (l &&& r, wv2))
    | some (Operation.lshift left right) =>
      match get_term_value fuel left wire_ops wire_values with
      | none => none
      | some (Except.error e) => some (Except.error e)
      | some (Except.ok (l, wv1)) =>
        match get_term_value fuel right wire_ops wv1 with
        | none => none
        | some (Except.error e) => some (Except.error e)
        | some (Except.ok (r, wv2)) =>
          if r < 16 then some (Except.ok ((l <<< r) % 65536, wv2))
          else some (Except.error EvalErr.shiftOverflow)
    | some (Operation.rshift left right) =>
      match get_term_value fuel left wire_ops wire_values with
      | none => none
      | some (Except.error e) => some (Except.error e)
      | some (Except.ok (l, wv1)) =>
        match get_term_value fuel right wire_ops wv1 with
        | none => none
        | some (Except.error e) => some (Except.error e)
        | some (Except.ok (r, wv2)) =>
          if r < 16 then some (Except.ok (l >>> r, wv2))
          else some (Except.error EvalErr.shiftOverflow)
    | some (Operation.not left) =>
      match get_term_value fuel left wire_ops wire_values with
      | none => none
      | some (Except.error e) => some (Except.error e)
      | some (Except.ok (l, wv1)) => some (Except.ok (l ^^^ 65535, wv1))
    | some (Operation.or left right) =>
      match get_term_value fuel left wire_ops wire_values with
      | none => none
      | some (Except.error e) => some (Except.error e)
      | some (Except.ok (l, wv1)) =>
        match get_term_value fuel right wire_ops wv1 with
        | none => none
        | some (Except.error e) => some (Except.error e)
        | some (Except.ok (r, wv2)) => some (Except.ok (l ||| r, wv2))

/-- Mirror of `get_term_value` (day07.rs lines 187-197): a term that parses as
a `u16` is that literal value; otherwise the term is a wire name and is
resolved recursively through the cache. -/
def get_term_value : Nat → String → Store → Cache → EvalResult
  | 0, _, _, _ => none
  | fuel + 1, term, wires, wire_values =>
    match parseU16 term with
    | some v => some (Except.ok (v, wire_values))
    | none => determine_target_wire_value_recursive fuel term wires wire_values

end

/-- Mirror of `determine_target_wire_value` (day07.rs lines 129-132): one
resolution pass over a fresh, empty Resolution Cache. -/
def determine_target_wire_value (fuel : Nat) (target_wire : String) (wire_ops : Store) : EvalResult :=
  determine_target_wire_value_recursive fuel target_wire wire_ops []

/-- Mirror of `solve_part1` (day07.rs lines 107-109). -/
def solve_part1 (fuel : Nat) (wire_ops : Store) : EvalResult :=
  determine_target_wire_value fuel ("a") wire_ops

/-- Mirror of `solve_part2` (day07.rs lines 113-126): resolve wire `a`, then
re-resolve it, with a fresh cache, against the store in which wire `b` has
been redefined as the direct value found for `a` (rendered back to a string by
`to_string`, here `Nat.repr`). -/
def solve_part2 (fuel : Nat) (wire_ops : Store) : EvalResult :=
  match determine_target_wire_value fuel ("a") wire_ops with
  | none => none
  | some (Except.error e) => some (Except.error e)
  | some (Except.ok (wire_a_value, _)) =>
    determine_target_wire_value fuel ("a")
      ((("b"), Operation.value (Nat.repr wire_a_value)) :: wire_ops)

/-- Outcome of an instrumented evaluation step: like `EvalResult`, but the
success payload additionally threads the Definition Store through every call
(so that the frame condition "the store is never mutated" becomes a provable
statement rather than a typing artefact) and returns the list of wires whose
Operation was evaluated by this call, in evaluation order (the counting
instrumentation wrapper of the specification). -/
abbrev EvalResultI := Option (Except EvalErr (Nat × Store × Cache × List String))

mutual

/-- Instrumented mirror of `determine_target_wire_value_recursive`: identical
control flow, threading the store and collecting the evaluation trace. -/
def determineInstr : Nat → String → Store → Cache → EvalResultI
  | 0, _, _, _ => none
  | fuel + 1, target_wire, wire_ops, wire_values =>
    match wire_values.lookup target_wire with
    | some v => some (Except.ok (v, wire_ops, wire_values, []))
    | none =>
      match evaluateInstr fuel wire_ops target_wire wire_values with
      | none => none
      | some (Except.error e) => some (Except.error e)
      | some (Except.ok (v, ops, wv, d)) =>
        some (Except.ok (v, ops, (target_wire, v) :: wv, d))

/-- Instrumented mirror of `evaluate_wire_value`: identical control flow, and
the returned trace starts with the wire being evaluated followed by the traces
of the operand resolutions. -/
def evaluateInstr : Nat → Store → String → Cache → EvalResultI
  | 0, _, _, _ => none
  | fuel + 1, wire_ops, wire, wire_values =>
    match wire_ops.lookup wire with
    | none => some (Except.error (EvalErr.missingDefinition wire))
    | some (Operation.value left) =>
      match getTermInstr fuel left wire_ops wire_values with
      | none => none
      | some (Except.error e) => some (Except.error e)
      | some (Except.ok (l, ops1, wv1, d1)) => some (Except.ok (l, ops1, wv1, wire :: d1))
    | some (Operation.and left right) =>
      match getTermInstr fuel left wire_ops wire_values with
      | none => none
      | some (Except.error e) => some (Except.error e)
      | some (Except.ok (l, ops1, wv1, d1)) =>
        match getTermInstr fuel right ops1 wv1 with
        | none => none
        | some (Except.error e) => some (Except.error e)
        | some (Except.ok (r, ops2, wv2, d2)) =>
          some (Except.ok (l &&& r, ops2, wv2, wire :: (d1 ++ d2)))
    | some (Operation.lshift left right) =>
      match getTermInstr fuel left wire_ops wire_values with
      | none => none
      | some (Except.error e) => some (Except.error e)
      | some (Except.ok (l, ops1, wv1, d1)) =>
        match getTermInstr fuel right ops1 wv1 with
        | none => none
        | some (Except.error e) => some (Except.error e)
        | some (Except.ok (r, ops2, wv2, d2)) =>
          if r < 16 then some (Except.ok ((l <<< r) % 65536, ops2, wv2, wire :: (d1 ++ d2)))
          else some (Except.error EvalErr.shiftOverflow)
    | some (Operation.rshift left right) =>
      match getTermInstr fuel left wire_ops wire_values with
      | none => none
      | some (Except.error e) => some (Except.error e)
      | some (Except.ok (l, ops1, wv1, d1)) =>
        match getTermInstr fuel right ops1 wv1 with
        | none => none
        | some (Except.error e) => some (Except.error e)
        | some (Except.ok (r, ops2, wv2, d2)) =>
          if r < 16 then some (Except.ok (l >>> r, ops2, wv2, wire :: (d1 ++ d2)))
          else some (Except.error EvalErr.shiftOverflow)
    | some (Operation.not left) =>
      match getTermInstr fuel left wire_ops wire_values with
      | none => none
      | some (Except.error e) => some (Except.error e)
      | some (Except.ok (l, ops1, wv1, d1)) =>
        some (Except.ok (l ^^^ 65535, ops1, wv1, wire :: d1))
    | some (Operation.or left right) =>
      match getTermInstr fuel left wire_ops wire_values with
      | none => none
      | some (Except.error e) => some (Except.error e)
      | some (Except.ok (l, ops1, wv1, d1)) =>
        match getTermInstr fuel right ops1 wv1 with
        | none => none
        | some (Except.error e) => some (Except.error e)
        | some (Except.ok (r, ops2, wv2, d2)) =>
          some (Except.ok (l ||| r, ops2, wv2, wire :: (d1 ++ d2)))

/-- Instrumented mirror of `get_term_value`: a literal term performs no store
or cache interaction and evaluates no wire Operation (empty trace). -/
def getTermInstr : Nat → String → Store → Cache → EvalResultI
  | 0, _, _, _ => none
  | fuel + 1, term, wires, wire_values =>
    match parseU16 term with
    | some v => some (Except.ok (v, wires, wire_values, []))
    | none => determineInstr fuel term wires wire_values

end

/-- Forget the instrumentation: keep the value and the Resolution Cache. -/
def projRes (r : EvalResultI) : EvalResult :=
  r.map (Except.map (fun x => (x.1, x.2.2.1)))

/-- Operand terms of an operation, in the order the Rust `match` arms resolve
them. -/
def Operation.terms : Operation → List String
  | Operation.value left => [left]
  | Operation.and left right => [left, right]
  | Operation.lshift left right => [left, right]
  | Operation.rshift left right => [left, right]
  | Operation.not left => [left]
  | Operation.or left right => [left, right]

/-- Operand terms that do not parse as `u16` literals, hence are treated as
wire names by `get_term_value`. -/
def Operation.refTerms (op : Operation) : List String :=
  op.terms.filter (fun t => (parseU16 t).isNone)

/-- The wire `w` either has no store entry itself, or its operation refers,
directly or transitively through wire-name operands, to a wire with no store
entry. -/
inductive ReachesMissing (store : Store) : String → Prop
  | here (w : String) : store.lookup w = none → ReachesMissing store w
  | step (w : String) (op : Operation) (t : String) : store.lookup w = some op →
      t ∈ op.refTerms → ReachesMissing store t → ReachesMissing store w

/-- Every wire recorded in the cache has all its transitive references present
in the store (holds for the fresh cache of a resolution pass and is preserved
by resolution). -/
def GoodCache (store : Store) (cache : Cache) : Prop :=
  ∀ w v, cache.lookup w = some v → ¬ ReachesMissing store w

/-- Every value recorded in the cache fits in 16 bits. -/
def CacheBounded (cache : Cache) : Prop :=
  ∀ w v, cache.lookup w = some v → v < 65536

/-- Every wire-name operand of every stored operation has a store entry. -/
def ClosedStore (store : Store) : Prop :=
  ∀ w op, store.lookup w = some op → ∀ t ∈ op.refTerms, (store.lookup t).isSome

/-- The function `rank` witnesses acyclicity of the store: every wire-name
operand of a stored operation has strictly smaller rank than the wire it
feeds. -/
def RankedStore (store : Store) (rank : String → Nat) : Prop :=
  ∀ w op, store.lookup w = some op → ∀ t ∈ op.refTerms, rank t < rank w

/-- Every shift amount that a shift operation of the store can ever resolve to
is strictly below 16 (the well-formed-input precondition of the
specification). -/
def ShiftSafe (store : Store) : Prop :=
  ∀ w l r, (store.lookup w = some (Operation.lshift l r) ∨
      store.lookup w = some (Operation.rshift l r)) →
    ∀ fuel c k c2, get_term_value fuel r store c = some (Except.ok (k, c2)) → k < 16

/-- Decimal digit characters of `n`, most significant first; reference shape
for `Nat.toDigitsCore`. -/
def decDigits (n : Nat) : List Char :=
  if n < 10 then [Nat.digitChar n]
  else decDigits (n / 10) ++ [Nat.digitChar (n % 10)]
decreasing_by exact Nat.div_lt_self (by omega) (by omega)

theorem projRes_none : projRes none = none := rfl

theorem projRes_error (e : EvalErr) : projRes (some (Except.error e)) = some (Except.error e) :=
  rfl

theorem projRes_ok (v : Nat) (s : Store) (c : Cache) (d : List String) :
    projRes (some (Except.ok (v, s, c, d))) = some (Except.ok (v, c)) := rfl

theorem instrFrame : ∀ fuel : Nat,
    (∀ t s c v s' c' d, determineInstr fuel t s c = some (Except.ok (v, s', c', d)) → s' = s) ∧
    (∀ s w c v s' c' d, evaluateInstr fuel s w c = some (Except.ok (v, s', c', d)) → s' = s) ∧
    (∀ t s c v s' c' d, getTermInstr fuel t s c = some (Except.ok (v, s', c', d)) → s' = s) := by
  intro fuel
  induction fuel with
  | zero =>
    refine ⟨?_, ?_, ?_⟩ <;> · intro _ _ _ _ _ _ _ h; exact absurd h (by simp [determineInstr, evaluateInstr, getTermInstr])
  | succ fuel ih =>
    obtain ⟨ihd, ihe, ihg⟩ := ih
    refine ⟨?_, ?_, ?_⟩
    · intro t s c v s' c' d h
      simp only [determineInstr] at h
      split at h
      · simp only [Option.some.injEq, Except.ok.injEq, Prod.mk.injEq] at h
        exact h.2.1.symm
      · split at h
        · exact absurd h (by simp)
        · exact absurd h (by simp)
        · next v0 s0 c0 d0 heq =>
          simp only [Option.some.injEq, Except.ok.injEq, Prod.mk.injEq] at h
          obtain ⟨-, hs, -, -⟩ := h
          exact hs ▸ ihe s t c v0 s0 c0 d0 heq
    · intro s w c v s' c' d h
      simp only [evaluateInstr] at h
      repeat' split at h
      all_goals
        first
        | (simp only [Option.some.injEq, Except.ok.injEq, Prod.mk.injEq] at h
           obtain ⟨-, hs, -, -⟩ := h
           subst hs
           first
           | rfl
           | solve_by_elim [Eq.trans])
        | (exact absurd h (by simp))
    · intro t s c v s' c' d h
      simp only [getTermInstr] at h
      split at h
      · simp only [Option.some.injEq, Except.ok.injEq, Prod.mk.injEq] at h
        exact h.2.1.symm
      · exact ihd t s c v s' c' d h

theorem instrAgree : ∀ fuel : Nat,
    (∀ t s c, projRes (determineInstr fuel t s c) = determine_target_wire_value_recursive fuel t s c) ∧
    (∀ s w c, projRes (evaluateInstr fuel s w c) = evaluate_wire_value fuel s w c) ∧
    (∀ t s c, projRes (getTermInstr fuel t s c) = get_term_value fuel t s c) := by
  intro fuel
  induction fuel with
  | zero => exact ⟨fun _ _ _ => rfl, fun _ _ _ => rfl, fun _ _ _ => rfl⟩
  | succ fuel ih =>
    obtain ⟨ihd, ihe, ihg⟩ := ih
    have ihgF := (instrFrame fuel).2.2
    refine ⟨?_, ?_, ?_⟩
    · intro t s c
      simp only [determineInstr, determine_target_wire_value_recursive]
      cases hl : c.lookup t with
      | some v => rfl
      | none =>
        rw [← ihe s t c]
        cases he : evaluateInstr fuel s t c with
        | none => rfl
        | some r =>
          cases r with
          | error e => rfl
          | ok x => obtain ⟨v0, s0, c0, d0⟩ := x; rfl
    · intro s w c
      simp only [evaluateInstr, evaluate_wire_value]
      cases hop : s.lookup w with
      | none => rfl
      | some op =>
        cases op with
        | value left =>
          dsimp only
          rw [← ihg left s c]
          cases h1 : getTermInstr fuel left s c with
          | none => rfl
          | some r =>
            cases r with
            | error e => rfl
            | ok x => obtain ⟨l, s1, c1, d1⟩ := x; rfl
        | not left =>
          dsimp only
          rw [← ihg left s c]
          cases h1 : getTermInstr fuel left s c with
          | none => rfl
          | some r =>
            cases r with
            | error e => rfl
            | ok x => obtain ⟨l, s1, c1, d1⟩ := x; rfl
        | and left right =>
          dsimp only
          rw [← ihg left s c]
          cases h1 : getTermInstr fuel left s c with
          | none => rfl
          | some r =>
            cases r with
            | error e => rfl
            | ok x =>
              obtain ⟨l, s1, c1, d1⟩ := x
              rw [ihgF left s c l s1 c1 d1 h1, projRes_ok]
              dsimp only
              rw [← ihg right s c1]
              cases h2 : getTermInstr fuel right s c1 with
              | none => rfl
              | some r2 =>
                cases r2 with
                | error e => rfl
                | ok x2 => obtain ⟨r2v, s2, c2, d2⟩ := x2; rfl
        | or left right =>
          dsimp only
          rw [← ihg left s c]
          cases h1 : getTermInstr fuel left s c with
          | none => rfl
          | some r =>
            cases r with
            | error e => rfl
            | ok x =>
              obtain ⟨l, s1, c1, d1⟩ := x
              rw [ihgF left s c l s1 c1 d1 h1, projRes_ok]
              dsimp only
              rw [← ihg right s c1]
              cases h2 : getTermInstr fuel right s c1 with
              | none => rfl
              | some r2 =>
                cases r2 with
                | error e => rfl
                | ok x2 => obtain ⟨r2v, s2, c2, d2⟩ := x2; rfl
        | lshift left right =>
          dsimp only
          rw [← ihg left s c]
          cases h1 : getTermInstr fuel left s c with
          | none => rfl
          | some r =>
            cases r with
            | error e => rfl
            | ok x =>
              obtain ⟨l, s1, c1, d1⟩ := x
              rw [ihgF left s c l s1 c1 d1 h1, projRes_ok]
              dsimp only
              rw [← ihg right s c1]
              cases h2 : getTermInstr fuel right s c1 with
              | none => rfl
              | some r2 =>
                cases r2 with
                | error e => rfl
                | ok x2 =>
                  obtain ⟨r2v, s2, c2, d2⟩ := x2
                  by_cases hr : r2v < 16 <;> simp [hr, projRes, Except.map]
        | rshift left right =>
          dsimp only
          rw [← ihg left s c]
          cases h1 : getTermInstr fuel left s c with
          | none => rfl
          | some r =>
            cases r with
            | error e => rfl
            | ok x =>
              obtain ⟨l, s1, c1, d1⟩ := x
              rw [ihgF left s c l s1 c1 d1 h1, projRes_ok]
              dsimp only
              rw [← ihg right s c1]
              cases h2 : getTermInstr fuel right s c1 with
              | none => rfl
              | some r2 =>
                cases r2 with
                | error e => rfl
                | ok x2 =>
                  obtain ⟨r2v, s2, c2, d2⟩ := x2
                  by_cases hr : r2v < 16 <;> simp [hr, projRes, Except.map]
    · intro t s c
      simp only [getTermInstr, get_term_value]
      cases hp : parseU16 t with
      | some v => rfl
      | none => exact ihd t s c

theorem fuelStep : ∀ fuel : Nat,
    (∀ t s c r, determine_target_wire_value_recursive fuel t s c = some r →
      determine_target_wire_value_recursive (fuel + 1) t s c = some r) ∧
    (∀ s w c r, evaluate_wire_value fuel s w c = some r →
      evaluate_wire_value (fuel + 1) s w c = some r) ∧
    (∀ t s c r, get_term_value fuel t s c = some r →
      get_term_value (fuel + 1) t s c = some r) := by
  intro fuel
  induction fuel with
  | zero =>
    refine ⟨?_, ?_, ?_⟩ <;>
      · intro _ _ _ r h
        exact Option.noConfusion h
  | succ fuel ih =>
    obtain ⟨ihd, ihe, ihg⟩ := ih
    refine ⟨?_, ?_, ?_⟩
    · intro t s c r h
      simp only [determine_target_wire_value_recursive] at h ⊢
      cases hl : c.lookup t with
      | some v => rw [hl] at h; exact h
      | none =>
        rw [hl] at h
        dsimp only at h ⊢
        cases he : evaluate_wire_value fuel s t c with
        | none => rw [he] at h; exact Option.noConfusion h
        | some x =>
          rw [he] at h
          rw [ihe s t c x he]
          cases x with
          | error e => exact h
          | ok p => exact h
    · intro s w c r h
      simp only [evaluate_wire_value] at h ⊢
      cases hop : s.lookup w with
      | none => rw [hop] at h; exact h
      | some op =>
        rw [hop] at h
        cases op with
        | value left =>
          dsimp only at h ⊢
          cases h1 : get_term_value fuel left s c with
          | none => rw [h1] at h; exact Option.noConfusion h
          | some x =>
            rw [h1] at h
            rw [ihg left s c x h1]
            cases x with
            | error e => exact h
            | ok p => exact h
        | not left =>
          dsimp only at h ⊢
          cases h1 : get_term_value fuel left s c with
          | none => rw [h1] at h; exact Option.noConfusion h
          | some x =>
            rw [h1] at h
            rw [ihg left s c x h1]
            cases x with
            | error e => exact h
            | ok p => exact h
        | and left right =>
          dsimp only at h ⊢
          cases h1 : get_term_value fuel left s c with
          | none => rw [h1] at h; exact Option.noConfusion h
          | some x =>
            rw [h1] at h
            rw [ihg left s c x h1]
            cases x with
            | error e => exact h
            | ok p =>
              obtain ⟨l, wv1⟩ := p
              dsimp only at h ⊢
              cases h2 : get_term_value fuel right s wv1 with
              | none => rw [h2] at h; exact Option.noConfusion h
              | some x2 =>
                rw [h2] at h
                rw [ihg right s wv1 x2 h2]
                cases x2 with
                | error e => exact h
                | ok p2 => exact h
        | or left right =>
          dsimp only at h ⊢
          cases h1 : get_term_value fuel left s c with
          | none => rw [h1] at h; exact Option.noConfusion h
          | some x =>
            rw [h1] at h
            rw [ihg left s c x h1]
            cases x with
            | error e => exact h
            | ok p =>
              obtain ⟨l, wv1⟩ := p
              dsimp only at h ⊢
              cases h2 : get_term_value fuel right s wv1 with
              | none => rw [h2] at h; exact Option.noConfusion h
              | some x2 =>
                rw [h2] at h
                rw [ihg right s wv1 x2 h2]
                cases x2 with
                | error e => exact h
                | ok p2 => exact h
        | lshift left right =>
          dsimp only at h ⊢
          cases h1 : get_term_value fuel left s c with
          | none => rw [h1] at h; exact Option.noConfusion h
          | some x =>
            rw [h1] at h
            rw [ihg left s c x h1]
            cases x with
            | error e => exact h
            | ok p =>
              obtain ⟨l, wv1⟩ := p
              dsimp only at h ⊢
              cases h2 : get_term_value fuel right s wv1 with
              | none => rw [h2] at h; exact Option.noConfusion h
              | some x2 =>
                rw [h2] at h
                rw [ihg right s wv1 x2 h2]
                cases x2 with
                | error e => exact h
                | ok p2 => exact h
        | rshift left right =>
          dsimp only at h ⊢
          cases h1 : get_term_value fuel left s c with
          | none => rw [h1] at h; exact Option.noConfusion h
          | some x =>
            rw [h1] at h
            rw [ihg left s c x h1]
            cases x with
            | error e => exact h
            | ok p =>
              obtain ⟨l, wv1⟩ := p
              dsimp only at h ⊢
              cases h2 : get_term_value fuel right s wv1 with
              | none => rw [h2] at h; exact Option.noConfusion h
              | some x2 =>
                rw [h2] at h
                rw [ihg right s wv1 x2 h2]
                cases x2 with
                | error e => exact h
                | ok p2 => exact h
    · intro t s c r h
      simp only [get_term_value] at h ⊢
      cases hp : parseU16 t with
      | some v => rw [hp] at h; exact h
      | none => rw [hp] at h; exact ihd t s c r h

theorem fuelMono :
    ∀ fuel fuel' : Nat, fuel ≤ fuel' →
    (∀ t s c r, determine_target_wire_value_recursive fuel t s c = some r →
      determine_target_wire_value_recursive fuel' t s c = some r) ∧
    (∀ s w c r, evaluate_wire_value fuel s w c = some r →
      evaluate_wire_value fuel' s w c = some r) ∧
    (∀ t s c r, get_term_value fuel t s c = some r → get_term_value fuel' t s c = some r) := by
  intro fuel fuel' hle
  induction fuel' with
  | zero =>
    obtain rfl : fuel = 0 := Nat.le_zero.mp hle
    exact ⟨fun _ _ _ _ h => h, fun _ _ _ _ h => h, fun _ _ _ _ h => h⟩
  | succ fuel' ih =>
    rcases Nat.lt_or_ge fuel (fuel' + 1) with hlt | hge
    · have hle' : fuel ≤ fuel' := Nat.lt_succ_iff.mp hlt
      obtain ⟨ihd, ihe, ihg⟩ := ih hle'
      exact ⟨fun t s c r h => (fuelStep fuel').1 t s c r (ihd t s c r h),
        fun s w c r h => (fuelStep fuel').2.1 s w c r (ihe s w c r h),
        fun t s c r h => (fuelStep fuel').2.2 t s c r (ihg t s c r h)⟩
    · obtain rfl : fuel = fuel' + 1 := Nat.le_antisymm hle hge
      exact ⟨fun _ _ _ _ h => h, fun _ _ _ _ h => h, fun _ _ _ _ h => h⟩

theorem parseU16_lt {t : String} {v : Nat} (h : parseU16 t = some v) : v < 65536 := by
  simp only [parseU16] at h
  repeat' split at h
  all_goals simp_all

theorem cacheBounded_nil : CacheBounded [] := fun _ _ h => Option.noConfusion h

theorem cacheBounded_cons {c : Cache} {t : String} {v : Nat}
    (hc : CacheBounded c) (hv : v < 65536) : CacheBounded ((t, v) :: c) := by
  intro w u hw
  simp only [List.lookup] at hw
  cases he : (w == t) with
  | true => rw [he] at hw; simp only [Option.some.injEq] at hw; exact hw ▸ hv
  | false => rw [he] at hw; exact hc w u hw

theorem u16_and {l r : Nat} (hr : r < 65536) : l &&& r < 65536 := by
  have h2 : (65536 : Nat) = 2 ^ 16 := by norm_num
  rw [h2] at hr ⊢
  exact Nat.and_lt_two_pow l hr

theorem u16_or {l r : Nat} (hl : l < 65536) (hr : r < 65536) : l ||| r < 65536 := by
  have h2 : (65536 : Nat) = 2 ^ 16 := by norm_num
  rw [h2] at hl hr ⊢
  exact Nat.or_lt_two_pow hl hr

theorem u16_xor {l r : Nat} (hl : l < 65536) (hr : r < 65536) : l ^^^ r < 65536 := by
  have h2 : (65536 : Nat) = 2 ^ 16 := by norm_num
  rw [h2] at hl hr ⊢
  exact Nat.xor_lt_two_pow hl hr

theorem u16_shiftRight {l : Nat} (r : Nat) (hl : l < 65536) : l >>> r < 65536 := by
  refine Nat.lt_of_le_of_lt ?_ hl
  rw [Nat.shiftRight_eq_div_pow]
  exact Nat.div_le_self _ _

theorem boundPack : ∀ fuel : Nat,
    (∀ t s c v c', CacheBounded c →
      determine_target_wire_value_recursive fuel t s c = some (Except.ok (v, c')) →
      v < 65536 ∧ CacheBounded c') ∧
    (∀ s w c v c', CacheBounded c →
      evaluate_wire_value fuel s w c = some (Except.ok (v, c')) →
      v < 65536 ∧ CacheBounded c') ∧
    (∀ t s c v c', CacheBounded c →
      get_term_value fuel t s c = some (Except.ok (v, c')) →
      v < 65536 ∧ CacheBounded c') := by
  intro fuel
  induction fuel with
  | zero =>
    refine ⟨?_, ?_, ?_⟩ <;>
      · intro _ _ _ _ _ _ h
        exact Option.noConfusion h
  | succ fuel ih =>
    obtain ⟨ihd, ihe, ihg⟩ := ih
    refine ⟨?_, ?_, ?_⟩
    · intro t s c v c' hc h
      simp only [determine_target_wire_value_recursive] at h
      cases hl : c.lookup t with
      | some v0 =>
        rw [hl] at h
        simp only [Option.some.injEq, Except.ok.injEq, Prod.mk.injEq] at h
        obtain ⟨hv, hcc⟩ := h
        exact ⟨hv ▸ hc t v0 hl, hcc ▸ hc⟩
      | none =>
        rw [hl] at h
        dsimp only at h
        cases he : evaluate_wire_value fuel s t c with
        | none => rw [he] at h; exact Option.noConfusion h
        | some x =>
          rw [he] at h
          cases x with
          | error e => exact absurd h (by simp)
          | ok p =>
            obtain ⟨v0, wv⟩ := p
            obtain ⟨hb, hwv⟩ := ihe s t c v0 wv hc he
            dsimp only at h
            simp only [Option.some.injEq, Except.ok.injEq, Prod.mk.injEq] at h
            obtain ⟨hv, hcc⟩ := h
            exact ⟨hv ▸ hb, hcc ▸ cacheBounded_cons hwv hb⟩
    · intro s w c v c' hc h
      simp only [evaluate_wire_value] at h
      cases hop : s.lookup w with
      | none => rw [hop] at h; exact absurd h (by simp)
      | some op =>
        rw [hop] at h
        cases op with
        | value left =>
          dsimp only at h
          cases h1 : get_term_value fuel left s c with
          | none => rw [h1] at h; exact Option.noConfusion h
          | some x =>
            rw [h1] at h
            cases x with
            | error e => exact absurd h (by simp)
            | ok p =>
              obtain ⟨l, wv1⟩ := p
              obtain ⟨hbl, hw1⟩ := ihg left s c l wv1 hc h1
              simp only [Option.some.injEq, Except.ok.injEq, Prod.mk.injEq] at h
              obtain ⟨hv, hcc⟩ := h
              exact ⟨hv ▸ hbl, hcc ▸ hw1⟩
        | not left =>
          dsimp only at h
          cases h1 : get_term_value fuel left s c with
          | none => rw [h1] at h; exact Option.noConfusion h
          | some x =>
            rw [h1] at h
            cases x with
            | error e => exact absurd h (by simp)
            | ok p =>
              obtain ⟨l, wv1⟩ := p
              obtain ⟨hbl, hw1⟩ := ihg left s c l wv1 hc h1
              dsimp only at h
              simp only [Option.some.injEq, Except.ok.injEq, Prod.mk.injEq] at h
              obtain ⟨hv, hcc⟩ := h
              exact ⟨hv ▸ u16_xor hbl (by norm_num), hcc ▸ hw1⟩
        | and left right =>
          dsimp only at h
          cases h1 : get_term_value fuel left s c with
          | none => rw [h1] at h; exact Option.noConfusion h
          | some x =>
            rw [h1] at h
            cases x with
            | error e => exact absurd h (by simp)
            | ok p =>
              obtain ⟨l, wv1⟩ := p
              obtain ⟨hbl, hw1⟩ := ihg left s c l wv1 hc h1
              dsimp only at h
              cases h2 : get_term_value fuel right s wv1 with
              | none => rw [h2] at h; exact Option.noConfusion h
              | some x2 =>
                rw [h2] at h
                cases x2 with
                | error e => exact absurd h (by simp)
                | ok p2 =>
                  obtain ⟨r2, wv2⟩ := p2
                  obtain ⟨hbr, hw2⟩ := ihg right s wv1 r2 wv2 hw1 h2
                  dsimp only at h
                  simp only [Option.some.injEq, Except.ok.injEq, Prod.mk.injEq] at h
                  obtain ⟨hv, hcc⟩ := h
                  exact ⟨hv ▸ u16_and hbr, hcc ▸ hw2⟩
        | or left right =>
          dsimp only at h
          cases h1 : get_term_value fuel left s c with
          | none => rw [h1] at h; exact Option.noConfusion h
          | some x =>
            rw [h1] at h
            cases x with
            | error e => exact absurd h (by simp)
            | ok p =>
              obtain ⟨l, wv1⟩ := p
              obtain ⟨hbl, hw1⟩ := ihg left s c l wv1 hc h1
              dsimp only at h
              cases h2 : get_term_value fuel right s wv1 with
              | none => rw [h2] at h; exact Option.noConfusion h
              | some x2 =>
                rw [h2] at h
                cases x2 with
                | error e => exact absurd h (by simp)
                | ok p2 =>
                  obtain ⟨r2, wv2⟩ := p2
                  obtain ⟨hbr, hw2⟩ := ihg right s wv1 r2 wv2 hw1 h2
                  dsimp only at h
                  simp only [Option.some.injEq, Except.ok.injEq, Prod.mk.injEq] at h
                  obtain ⟨hv, hcc⟩ := h
                  exact ⟨hv ▸ u16_or hbl hbr, hcc ▸ hw2⟩
        | lshift left right =>
          dsimp only at h
          cases h1 : get_term_value fuel left s c with
          | none => rw [h1] at h; exact Option.noConfusion h
          | some x =>
            rw [h1] at h
            cases x with
            | error e => exact absurd h (by simp)
            | ok p =>
              obtain ⟨l, wv1⟩ := p
              obtain ⟨hbl, hw1⟩ := ihg left s c l wv1 hc h1
              dsimp only at h
              cases h2 : get_term_value fuel right s wv1 with
              | none => rw [h2] at h; exact Option.noConfusion h
              | some x2 =>
                rw [h2] at h
                cases x2 with
                | error e => exact absurd h (by simp)
                | ok p2 =>
                  obtain ⟨r2, wv2⟩ := p2
                  obtain ⟨hbr, hw2⟩ := ihg right s wv1 r2 wv2 hw1 h2
                  dsimp only at h
                  by_cases hr : r2 < 16
                  · rw [if_pos hr] at h
                    simp only [Option.some.injEq, Except.ok.injEq, Prod.mk.injEq] at h
                    obtain ⟨hv, hcc⟩ := h
                    exact ⟨hv ▸ Nat.mod_lt _ (by norm_num), hcc ▸ hw2⟩
                  · rw [if_neg hr] at h
                    exact absurd h (by simp)
        | rshift left right =>
          dsimp only at h
          cases h1 : get_term_value fuel left s c with
          | none => rw [h1] at h; exact Option.noConfusion h
          | some x =>
            rw [h1] at h
            cases x with
            | error e => exact absurd h (by simp)
            | ok p =>
              obtain ⟨l, wv1⟩ := p
              obtain ⟨hbl, hw1⟩ := ihg left s c l wv1 hc h1
              dsimp only at h
              cases h2 : get_term_value fuel right s wv1 with
              | none => rw [h2] at h; exact Option.noConfusion h
              | some x2 =>
                rw [h2] at h
                cases x2 with
                | error e => exact absurd h (by simp)
                | ok p2 =>
                  obtain ⟨r2, wv2⟩ := p2
                  obtain ⟨hbr, hw2⟩ := ihg right s wv1 r2 wv2 hw1 h2
                  dsimp only at h
                  by_cases hr : r2 < 16
                  · rw [if_pos hr] at h
                    simp only [Option.some.injEq, Except.ok.injEq, Prod.mk.injEq] at h
                    obtain ⟨hv, hcc⟩ := h
                    exact ⟨hv ▸ u16_shiftRight r2 hbl, hcc ▸ hw2⟩
                  · rw [if_neg hr] at h
                    exact absurd h (by simp)
    · intro t s c v c' hc h
      simp only [get_term_value] at h
      cases hp : parseU16 t with
      | some v0 =>
        rw [hp] at h
        simp only [Option.some.injEq, Except.ok.injEq, Prod.mk.injEq] at h
        obtain ⟨hv, hcc⟩ := h
        exact ⟨hv ▸ parseU16_lt hp, hcc ▸ hc⟩
      | none => rw [hp] at h; exact ihd t s c v c' hc h

theorem det_records {fuel : Nat} {t : String} {s : Store} {c : Cache} {v : Nat} {c' : Cache}
    (h : determine_target_wire_value_recursive fuel t s c = some (Except.ok (v, c'))) :
    c'.lookup t = some v := by
  cases fuel with
  | zero => exact Option.noConfusion h
  | succ fuel =>
    simp only [determine_target_wire_value_recursive] at h
    cases hl : c.lookup t with
    | some v0 =>
      rw [hl] at h
      simp only [Option.some.injEq, Except.ok.injEq, Prod.mk.injEq] at h
      obtain ⟨hv, hcc⟩ := h
      rw [← hcc, ← hv]
      exact hl
    | none =>
      rw [hl] at h
      dsimp only at h
      cases he : evaluate_wire_value fuel s t c with
      | none => rw [he] at h; exact Option.noConfusion h
      | some x =>
        rw [he] at h
        cases x with
        | error e => exact absurd h (by simp)
        | ok p =>
          obtain ⟨v0, wv⟩ := p
          dsimp only at h
          simp only [Option.some.injEq, Except.ok.injEq, Prod.mk.injEq] at h
          obtain ⟨hv, hcc⟩ := h
          rw [← hcc]
          simp [List.lookup, hv]

theorem detInstr_records {fuel : Nat} {t : String} {s : Store} {c : Cache} {v : Nat}
    {s' : Store} {c' : Cache} {d : List String}
    (h : determineInstr fuel t s c = some (Except.ok (v, s', c', d))) :
    c'.lookup t = some v := by
  cases fuel with
  | zero => exact Option.noConfusion h
  | succ fuel =>
    simp only [determineInstr] at h
    cases hl : c.lookup t with
    | some v0 =>
      rw [hl] at h
      simp only [Option.some.injEq, Except.ok.injEq, Prod.mk.injEq] at h
      obtain ⟨hv, -, hcc, -⟩ := h
      rw [← hcc, ← hv]
      exact hl
    | none =>
      rw [hl] at h
      dsimp only at h
      cases he : evaluateInstr fuel s t c with
      | none => rw [he] at h; exact Option.noConfusion h
      | some x =>
        rw [he] at h
        cases x with
        | error e => exact absurd h (by simp)
        | ok p =>
          obtain ⟨v0, s0, wv, d0⟩ := p
          dsimp only at h
          simp only [Option.some.injEq, Except.ok.injEq, Prod.mk.injEq] at h
          obtain ⟨hv, -, hcc, -⟩ := h
          rw [← hcc]
          simp [List.lookup, hv]

theorem detInstr_cache_hit (fuel : Nat) (t : String) (s : Store) (c : Cache) (v : Nat)
    (h : c.lookup t = some v) :
    determineInstr (fuel + 1) t s c = some (Except.ok (v, s, c, [])) := by
  simp only [determineInstr, h]

theorem goodCache_nil (s : Store) : GoodCache s [] := fun _ _ h => Option.noConfusion h

theorem goodCache_cons {s : Store} {c : Cache} {t : String} {v : Nat}
    (hc : GoodCache s c) (ht : ¬ ReachesMissing s t) : GoodCache s ((t, v) :: c) := by
  intro w u hw
  simp only [List.lookup] at hw
  cases he : (w == t) with
  | true =>
    have hwt : w = t := by simpa using he
    exact hwt ▸ ht
  | false => rw [he] at hw; exact hc w u hw

theorem notReaches_of_op {s : Store} {w : String} {op : Operation}
    (hop : s.lookup w = some op)
    (hterms : ∀ t ∈ op.refTerms, ¬ ReachesMissing s t) :
    ¬ ReachesMissing s w := by
  intro hrm
  cases hrm with
  | here w0 hw => rw [hop] at hw; exact Option.noConfusion hw
  | step w0 op' t' hw hm hrmt =>
    rw [hop] at hw
    have hoo : op = op' := by injection hw
    rw [← hoo] at hm
    exact hterms t' hm hrmt

theorem resolve_refTerm {s : Store} {t : String}
    (hd : (parseU16 t).isSome ∨ ¬ ReachesMissing s t)
    (hn : (parseU16 t).isNone = true) : ¬ ReachesMissing s t := by
  rcases hd with hs | h
  · rw [Option.isNone_iff_eq_none] at hn
    rw [hn] at hs
    exact absurd hs (by simp)
  · exact h

theorem goodPack : ∀ fuel : Nat,
    (∀ t s c v c', GoodCache s c →
      determine_target_wire_value_recursive fuel t s c = some (Except.ok (v, c')) →
      ¬ ReachesMissing s t ∧ GoodCache s c') ∧
    (∀ s w c v c', GoodCache s c →
      evaluate_wire_value fuel s w c = some (Except.ok (v, c')) →
      ¬ ReachesMissing s w ∧ GoodCache s c') ∧
    (∀ t s c v c', GoodCache s c →
      get_term_value fuel t s c = some (Except.ok (v, c')) →
      ((parseU16 t).isSome ∨ ¬ ReachesMissing s t) ∧ GoodCache s c') := by
  intro fuel
  induction fuel with
  | zero =>
    refine ⟨?_, ?_, ?_⟩ <;>
      · intro _ _ _ _ _ _ h
        exact Option.noConfusion h
  | succ fuel ih =>
    obtain ⟨ihd, ihe, ihg⟩ := ih
    refine ⟨?_, ?_, ?_⟩
    · intro t s c v c' hc h
      simp only [determine_target_wire_value_recursive] at h
      cases hl : c.lookup t with
      | some v0 =>
        rw [hl] at h
        simp only [Option.some.injEq, Except.ok.injEq, Prod.mk.injEq] at h
        obtain ⟨-, hcc⟩ := h
        exact ⟨hc t v0 hl, hcc ▸ hc⟩
      | none =>
        rw [hl] at h
        dsimp only at h
        cases he : evaluate_wire_value fuel s t c with
        | none => rw [he] at h; exact Option.noConfusion h
        | some x =>
          rw [he] at h
          cases x with
          | error e => exact absurd h (by simp)
          | ok p =>
            obtain ⟨v0, wv⟩ := p
            obtain ⟨hnr, hwv⟩ := ihe s t c v0 wv hc he
            dsimp only at h
            simp only [Option.some.injEq, Except.ok.injEq, Prod.mk.injEq] at h
            obtain ⟨-, hcc⟩ := h
            exact ⟨hnr, hcc ▸ goodCache_cons hwv hnr⟩
    · intro s w c v c' hc h
      simp only [evaluate_wire_value] at h
      cases hop : s.lookup w with
      | none => rw [hop] at h; exact absurd h (by simp)
      | some op =>
        rw [hop] at h
        cases op with
        | value left =>
          dsimp only at h
          cases h1 : get_term_value fuel left s c with
          | none => rw [h1] at h; exact Option.noConfusion h
          | some x =>
            rw [h1] at h
            cases x with
            | error e => exact absurd h (by simp)
            | ok p =>
              obtain ⟨l, wv1⟩ := p
              have hL := ihg left s c l wv1 hc h1
              try dsimp only at h
              simp only [Option.some.injEq, Except.ok.injEq, Prod.mk.injEq] at h
              obtain ⟨-, hcc⟩ := h
              refine ⟨notReaches_of_op hop ?_, hcc ▸ hL.2⟩
              intro t2 ht2
              simp only [Operation.refTerms, Operation.terms, List.mem_filter, List.mem_cons,
                List.not_mem_nil, or_false] at ht2
              obtain ⟨rfl, hpn⟩ := ht2
              exact resolve_refTerm hL.1 hpn
        | not left =>
          dsimp only at h
          cases h1 : get_term_value fuel left s c with
          | none => rw [h1] at h; exact Option.noConfusion h
          | some x =>
            rw [h1] at h
            cases x with
            | error e => exact absurd h (by simp)
            | ok p =>
              obtain ⟨l, wv1⟩ := p
              have hL := ihg left s c l wv1 hc h1
              try dsimp only at h
              simp only [Option.some.injEq, Except.ok.injEq, Prod.mk.injEq] at h
              obtain ⟨-, hcc⟩ := h
              refine ⟨notReaches_of_op hop ?_, hcc ▸ hL.2⟩
              intro t2 ht2
              simp only [Operation.refTerms, Operation.terms, List.mem_filter, List.mem_cons,
                List.not_mem_nil, or_false] at ht2
              obtain ⟨rfl, hpn⟩ := ht2
              exact resolve_refTerm hL.1 hpn
        | and left right =>
          dsimp only at h
          cases h1 : get_term_value fuel left s c with
          | none => rw [h1] at h; exact Option.noConfusion h
          | some x =>
            rw [h1] at h
            cases x with
            | error e => exact absurd h (by simp)
            | ok p =>
              obtain ⟨l, wv1⟩ := p
              have hL := ihg left s c l wv1 hc h1
              dsimp only at h
              cases h2 : get_term_value fuel right s wv1 with
              | none => rw [h2] at h; exact Option.noConfusion h
              | some x2 =>
                rw [h2] at h
                cases x2 with
                | error e => exact absurd h (by simp)
                | ok p2 =>
                  obtain ⟨r2, wv2⟩ := p2
                  have hR := ihg right s wv1 r2 wv2 hL.2 h2
                  dsimp only at h
                  simp only [Option.some.injEq, Except.ok.injEq, Prod.mk.injEq] at h
                  obtain ⟨-, hcc⟩ := h
                  refine ⟨notReaches_of_op hop ?_, hcc ▸ hR.2⟩
                  intro t2 ht2
                  simp only [Operation.refTerms, Operation.terms, List.mem_filter, List.mem_cons,
                    List.not_mem_nil, or_false] at ht2
                  obtain ⟨hmem, hpn⟩ := ht2
                  rcases hmem with rfl | rfl
                  · exact resolve_refTerm hL.1 hpn
                  · exact resolve_refTerm hR.1 hpn
        | or left right =>
          dsimp only at h
          cases h1 : get_term_value fuel left s c with
          | none => rw [h1] at h; exact Option.noConfusion h
          | some x =>
            rw [h1] at h
            cases x with
            | error e => exact absurd h (by simp)
            | ok p =>
              obtain ⟨l, wv1⟩ := p
              have hL := ihg left s c l wv1 hc h1
              dsimp only at h
              cases h2 : get_term_value fuel right s wv1 with
              | none => rw [h2] at h; exact Option.noConfusion h
              | some x2 =>
                rw [h2] at h
                cases x2 with
                | error e => exact absurd h (by simp)
                | ok p2 =>
                  obtain ⟨r2, wv2⟩ := p2
                  have hR := ihg right s wv1 r2 wv2 hL.2 h2
                  dsimp only at h
                  simp only [Option.some.injEq, Except.ok.injEq, Prod.mk.injEq] at h
                  obtain ⟨-, hcc⟩ := h
                  refine ⟨notReaches_of_op hop ?_, hcc ▸ hR.2⟩
                  intro t2 ht2
                  simp only [Operation.refTerms, Operation.terms, List.mem_filter, List.mem_cons,
                    List.not_mem_nil, or_false] at ht2
                  obtain ⟨hmem, hpn⟩ := ht2
                  rcases hmem with rfl | rfl
                  · exact resolve_refTerm hL.1 hpn
                  · exact resolve_refTerm hR.1 hpn
        | lshift left right =>
          dsimp only at h
          cases h1 : get_term_value fuel left s c with
          | none => rw [h1] at h; exact Option.noConfusion h
          | some x =>
            rw [h1] at h
            cases x with
            | error e => exact absurd h (by simp)
            | ok p =>
              obtain ⟨l, wv1⟩ := p
              have hL := ihg left s c l wv1 hc h1
              dsimp only at h
              cases h2 : get_term_value fuel right s wv1 with
              | none => rw [h2] at h; exact Option.noConfusion h
              | some x2 =>
                rw [h2] at h
                cases x2 with
                | error e => exact absurd h (by simp)
                | ok p2 =>
                  obtain ⟨r2, wv2⟩ := p2
                  have hR := ihg right s wv1 r2 wv2 hL.2 h2
                  dsimp only at h
                  by_cases hr : r2 < 16
                  case neg => rw [if_neg hr] at h; exact absurd h (by simp)
                  rw [if_pos hr] at h
                  simp only [Option.some.injEq, Except.ok.injEq, Prod.mk.injEq] at h
                  obtain ⟨-, hcc⟩ := h
                  refine ⟨notReaches_of_op hop ?_, hcc ▸ hR.2⟩
                  intro t2 ht2
                  simp only [Operation.refTerms, Operation.terms, List.mem_filter, List.mem_cons,
                    List.not_mem_nil, or_false] at ht2
                  obtain ⟨hmem, hpn⟩ := ht2
                  rcases hmem with rfl | rfl
                  · exact resolve_refTerm hL.1 hpn
                  · exact resolve_refTerm hR.1 hpn
        | rshift left right =>
          dsimp only at h
          cases h1 : get_term_value fuel left s c with
          | none => rw [h1] at h; exact Option.noConfusion h
          | some x =>
            rw [h1] at h
            cases x with
            | error e => exact absurd h (by simp)
            | ok p =>
              obtain ⟨l, wv1⟩ := p
              have hL := ihg left s c l wv1 hc h1
              dsimp only at h
              cases h2 : get_term_value fuel right s wv1 with
              | none => rw [h2] at h; exact Option.noConfusion h
              | some x2 =>
                rw [h2] at h
                cases x2 with
                | error e => exact absurd h (by simp)
                | ok p2 =>
                  obtain ⟨r2, wv2⟩ := p2
                  have hR := ihg right s wv1 r2 wv2 hL.2 h2
                  dsimp only at h
                  by_cases hr : r2 < 16
                  case neg => rw [if_neg hr] at h; exact absurd h (by simp)
                  rw [if_pos hr] at h
                  simp only [Option.some.injEq, Except.ok.injEq, Prod.mk.injEq] at h
                  obtain ⟨-, hcc⟩ := h
                  refine ⟨notReaches_of_op hop ?_, hcc ▸ hR.2⟩
                  intro t2 ht2
                  simp only [Operation.refTerms, Operation.terms, List.mem_filter, List.mem_cons,
                    List.not_mem_nil, or_false] at ht2
                  obtain ⟨hmem, hpn⟩ := ht2
                  rcases hmem with rfl | rfl
                  · exact resolve_refTerm hL.1 hpn
                  · exact resolve_refTerm hR.1 hpn
    · intro t s c v c' hc h
      simp only [get_term_value] at h
      cases hp : parseU16 t with
      | some v0 =>
        rw [hp] at h
        simp only [Option.some.injEq, Except.ok.injEq, Prod.mk.injEq] at h
        obtain ⟨-, hcc⟩ := h
        exact ⟨Or.inl rfl, hcc ▸ hc⟩
      | none =>
        rw [hp] at h
        obtain ⟨hnr, hgc⟩ := ihd t s c v c' hc h
        exact ⟨Or.inr hnr, hgc⟩

theorem lookup_cons {β : Type} (w t : String) (v : β) (c : List (String × β)) :
    List.lookup w ((t, v) :: c) = if w = t then some v else List.lookup w c := by
  by_cases h : w = t
  · subst h
    simp [List.lookup]
  · have hb : (w == t) = false := beq_eq_false_iff_ne.mpr h
    simp [List.lookup, hb, h]

theorem nodupPack (s : Store) (rank : String → Nat) (hrank : RankedStore s rank) :
    ∀ fuel : Nat,
    (∀ t c v s' c' d, determineInstr fuel t s c = some (Except.ok (v, s', c', d)) →
      d.Nodup ∧
      (∀ w ∈ d, rank w ≤ rank t) ∧
      (∀ w ∈ d, c.lookup w = none) ∧
      (∀ w ∈ d, (c'.lookup w).isSome) ∧
      (∀ w u, c.lookup w = some u → c'.lookup w = some u)) ∧
    (∀ w0 c v s' c' d, evaluateInstr fuel s w0 c = some (Except.ok (v, s', c', d)) →
      (∃ rest, d = w0 :: rest ∧ rest.Nodup ∧
        (∀ w ∈ rest, rank w < rank w0) ∧
        (∀ w ∈ rest, c.lookup w = none) ∧
        (∀ w ∈ rest, (c'.lookup w).isSome)) ∧
      (∀ w u, c.lookup w = some u → c'.lookup w = some u)) ∧
    (∀ t c v s' c' d, getTermInstr fuel t s c = some (Except.ok (v, s', c', d)) →
      d.Nodup ∧
      (∀ w ∈ d, rank w ≤ rank t ∧ (parseU16 t).isNone = true) ∧
      (∀ w ∈ d, c.lookup w = none) ∧
      (∀ w ∈ d, (c'.lookup w).isSome) ∧
      (∀ w u, c.lookup w = some u → c'.lookup w = some u)) := by
  intro fuel
  induction fuel with
  | zero =>
    refine ⟨?_, ?_, ?_⟩ <;>
      · intro _ _ _ _ _ _ h
        exact Option.noConfusion h
  | succ fuel ih =>
    obtain ⟨ihd, ihe, ihg⟩ := ih
    refine ⟨?_, ?_, ?_⟩
    · intro t c v s' c' d h
      simp only [determineInstr] at h
      cases hl : c.lookup t with
      | some v0 =>
        rw [hl] at h
        simp only [Option.some.injEq, Except.ok.injEq, Prod.mk.injEq] at h
        obtain ⟨-, -, hcc, hdd⟩ := h
        subst hcc
        subst hdd
        exact ⟨List.nodup_nil, fun w hw => absurd hw (List.not_mem_nil w),
          fun w hw => absurd hw (List.not_mem_nil w),
          fun w hw => absurd hw (List.not_mem_nil w), fun w u hu => hu⟩
      | none =>
        rw [hl] at h
        dsimp only at h
        cases he : evaluateInstr fuel s t c with
        | none => rw [he] at h; exact Option.noConfusion h
        | some x =>
          rw [he] at h
          cases x with
          | error e => exact absurd h (by simp)
          | ok p =>
            obtain ⟨v0, s0, wv, d0⟩ := p
            obtain ⟨⟨rest, hd0, hrnd, hrrk, hrnone, hrsome⟩, hmono⟩ :=
              ihe t c v0 s0 wv d0 he
            dsimp only at h
            simp only [Option.some.injEq, Except.ok.injEq, Prod.mk.injEq] at h
            obtain ⟨hv, -, hcc, hdd⟩ := h
            subst hd0
            subst hcc
            subst hdd
            refine ⟨?_, ?_, ?_, ?_, ?_⟩
            · rw [List.nodup_cons]
              refine ⟨?_, hrnd⟩
              intro hmem
              exact absurd rfl (Nat.ne_of_lt (hrrk t hmem))
            · intro w hw
              rcases List.mem_cons.mp hw with rfl | hw2
              · exact Nat.le_refl _
              · exact Nat.le_of_lt (hrrk w hw2)
            · intro w hw
              rcases List.mem_cons.mp hw with rfl | hw2
              · exact hl
              · exact hrnone w hw2
            · intro w hw
              rw [lookup_cons]
              by_cases hwt : w = t
              · rw [if_pos hwt]; rfl
              · rw [if_neg hwt]
                rcases List.mem_cons.mp hw with rfl | hw2
                · exact absurd rfl hwt
                · exact hrsome w hw2
            · intro w u hu
              rw [lookup_cons]
              have hwt : ¬ w = t := by
                intro hwt
                rw [hwt, hl] at hu
                exact Option.noConfusion hu
              rw [if_neg hwt]
              exact hmono w u hu
    · intro w0 c v s' c' d h
      simp only [evaluateInstr] at h
      cases hop : s.lookup w0 with
      | none => rw [hop] at h; exact absurd h (by simp)
      | some op =>
        rw [hop] at h
        cases op with
        | value left =>
          try dsimp only at h
          cases h1 : getTermInstr fuel left s c with
          | none => rw [h1] at h; exact Option.noConfusion h
          | some x =>
            rw [h1] at h
            cases x with
            | error e => exact absurd h (by simp)
            | ok p =>
              obtain ⟨l, s1, c1, d1⟩ := p
              obtain ⟨gnd, grk, gnone, gsome, gmono⟩ := ihg left c l s1 c1 d1 h1
              try dsimp only at h
              simp only [Option.some.injEq, Except.ok.injEq, Prod.mk.injEq] at h
              obtain ⟨-, -, hcc, hdd⟩ := h
              subst hcc
              subst hdd
              refine ⟨⟨d1, rfl, gnd, ?_, gnone, gsome⟩, gmono⟩
              intro w hw
              obtain ⟨hle, hpn⟩ := grk w hw
              exact Nat.lt_of_le_of_lt hle (hrank w0 (Operation.value left) hop left
                (by simp [Operation.refTerms, Operation.terms, hpn]))
        | not left =>
          try dsimp only at h
          cases h1 : getTermInstr fuel left s c with
          | none => rw [h1] at h; exact Option.noConfusion h
          | some x =>
            rw [h1] at h
            cases x with
            | error e => exact absurd h (by simp)
            | ok p =>
              obtain ⟨l, s1, c1, d1⟩ := p
              obtain ⟨gnd, grk, gnone, gsome, gmono⟩ := ihg left c l s1 c1 d1 h1
              try dsimp only at h
              simp only [Option.some.injEq, Except.ok.injEq, Prod.mk.injEq] at h
              obtain ⟨-, -, hcc, hdd⟩ := h
              subst hcc
              subst hdd
              refine ⟨⟨d1, rfl, gnd, ?_, gnone, gsome⟩, gmono⟩
              intro w hw
              obtain ⟨hle, hpn⟩ := grk w hw
              exact Nat.lt_of_le_of_lt hle (hrank w0 (Operation.not left) hop left
                (by simp [Operation.refTerms, Operation.terms, hpn]))
        | and left right =>
          try dsimp only at h
          cases h1 : getTermInstr fuel left s c with
          | none => rw [h1] at h; exact Option.noConfusion h
          | some x =>
            rw [h1] at h
            cases x with
            | error e => exact absurd h (by simp)
            | ok p =>
              obtain ⟨l, s1, c1, d1⟩ := p
              obtain ⟨gnd, grk, gnone, gsome, gmono⟩ := ihg left c l s1 c1 d1 h1
              have hs1 : s1 = s := (instrFrame fuel).2.2 left s c l s1 c1 d1 h1
              rw [hs1] at h
              try dsimp only at h
              cases h2 : getTermInstr fuel right s c1 with
              | none => rw [h2] at h; exact Option.noConfusion h
              | some x2 =>
                rw [h2] at h
                cases x2 with
                | error e => exact absurd h (by simp)
                | ok p2 =>
                  obtain ⟨r2, s2, c2, d2⟩ := p2
                  obtain ⟨gnd2, grk2, gnone2, gsome2, gmono2⟩ := ihg right c1 r2 s2 c2 d2 h2
                  try dsimp only at h
                  simp only [Option.some.injEq, Except.ok.injEq, Prod.mk.injEq] at h
                  obtain ⟨-, -, hcc, hdd⟩ := h
                  subst hcc
                  subst hdd
                  have hmemL : left ∈ (Operation.and left right).refTerms → rank left < rank w0 :=
                    fun hm => hrank w0 (Operation.and left right) hop left hm
                  have hmemR : right ∈ (Operation.and left right).refTerms → rank right < rank w0 :=
                    fun hm => hrank w0 (Operation.and left right) hop right hm
                  refine ⟨⟨d1 ++ d2, rfl, ?_, ?_, ?_, ?_⟩, fun w u hu => gmono2 w u (gmono w u hu)⟩
                  · rw [List.nodup_append]
                    refine ⟨gnd, gnd2, ?_⟩
                    intro a ha ha2
                    have h3 := gsome a ha
                    have h4 := gnone2 a ha2
                    rw [h4] at h3
                    exact Bool.noConfusion h3
                  · intro w hw
                    rcases List.mem_append.mp hw with hw1 | hw2
                    · obtain ⟨hle, hpn⟩ := grk w hw1
                      exact Nat.lt_of_le_of_lt hle (hmemL
                        (by simp [Operation.refTerms, Operation.terms, hpn]))
                    · obtain ⟨hle, hpn⟩ := grk2 w hw2
                      exact Nat.lt_of_le_of_lt hle (hmemR
                        (by simp [Operation.refTerms, Operation.terms, hpn]))
                  · intro w hw
                    rcases List.mem_append.mp hw with hw1 | hw2
                    · exact gnone w hw1
                    · cases hcw : c.lookup w with
                      | none => rfl
                      | some u =>
                        have := gmono w u hcw
                        rw [gnone2 w hw2] at this
                        exact Option.noConfusion this
                  · intro w hw
                    rcases List.mem_append.mp hw with hw1 | hw2
                    · obtain ⟨u, hu⟩ := Option.isSome_iff_exists.mp (gsome w hw1)
                      rw [Option.isSome_iff_exists]
                      exact ⟨u, gmono2 w u hu⟩
                    · exact gsome2 w hw2
        | or left right =>
          try dsimp only at h
          cases h1 : getTermInstr fuel left s c with
          | none => rw [h1] at h; exact Option.noConfusion h
          | some x =>
            rw [h1] at h
            cases x with
            | error e => exact absurd h (by simp)
            | ok p =>
              obtain ⟨l, s1, c1, d1⟩ := p
              obtain ⟨gnd, grk, gnone, gsome, gmono⟩ := ihg left c l s1 c1 d1 h1
              have hs1 : s1 = s := (instrFrame fuel).2.2 left s c l s1 c1 d1 h1
              rw [hs1] at h
              try dsimp only at h
              cases h2 : getTermInstr fuel right s c1 with
              | none => rw [h2] at h; exact Option.noConfusion h
              | some x2 =>
                rw [h2] at h
                cases x2 with
                | error e => exact absurd h (by simp)
                | ok p2 =>
                  obtain ⟨r2, s2, c2, d2⟩ := p2
                  obtain ⟨gnd2, grk2, gnone2, gsome2, gmono2⟩ := ihg right c1 r2 s2 c2 d2 h2
                  try dsimp only at h
                  simp only [Option.some.injEq, Except.ok.injEq, Prod.mk.injEq] at h
                  obtain ⟨-, -, hcc, hdd⟩ := h
                  subst hcc
                  subst hdd
                  have hmemL : left ∈ (Operation.or left right).refTerms → rank left < rank w0 :=
                    fun hm => hrank w0 (Operation.or left right) hop left hm
                  have hmemR : right ∈ (Operation.or left right).refTerms → rank right < rank w0 :=
                    fun hm => hrank w0 (Operation.or left right) hop right hm
                  refine ⟨⟨d1 ++ d2, rfl, ?_, ?_, ?_, ?_⟩, fun w u hu => gmono2 w u (gmono w u hu)⟩
                  · rw [List.nodup_append]
                    refine ⟨gnd, gnd2, ?_⟩
                    intro a ha ha2
                    have h3 := gsome a ha
                    have h4 := gnone2 a ha2
                    rw [h4] at h3
                    exact Bool.noConfusion h3
                  · intro w hw
                    rcases List.mem_append.mp hw with hw1 | hw2
                    · obtain ⟨hle, hpn⟩ := grk w hw1
                      exact Nat.lt_of_le_of_lt hle (hmemL
                        (by simp [Operation.refTerms, Operation.terms, hpn]))
                    · obtain ⟨hle, hpn⟩ := grk2 w hw2
                      exact Nat.lt_of_le_of_lt hle (hmemR
                        (by simp [Operation.refTerms, Operation.terms, hpn]))
                  · intro w hw
                    rcases List.mem_append.mp hw with hw1 | hw2
                    · exact gnone w hw1
                    · cases hcw : c.lookup w with
                      | none => rfl
                      | some u =>
                        have := gmono w u hcw
                        rw [gnone2 w hw2] at this
                        exact Option.noConfusion this
                  · intro w hw
                    rcases List.mem_append.mp hw with hw1 | hw2
                    · obtain ⟨u, hu⟩ := Option.isSome_iff_exists.mp (gsome w hw1)
                      rw [Option.isSome_iff_exists]
                      exact ⟨u, gmono2 w u hu⟩
                    · exact gsome2 w hw2
        | lshift left right =>
          try dsimp only at h
          cases h1 : getTermInstr fuel left s c with
          | none => rw [h1] at h; exact Option.noConfusion h
          | some x =>
            rw [h1] at h
            cases x with
            | error e => exact absurd h (by simp)
            | ok p =>
              obtain ⟨l, s1, c1, d1⟩ := p
              obtain ⟨gnd, grk, gnone, gsome, gmono⟩ := ihg left c l s1 c1 d1 h1
              have hs1 : s1 = s := (instrFrame fuel).2.2 left s c l s1 c1 d1 h1
              rw [hs1] at h
              try dsimp only at h
              cases h2 : getTermInstr fuel right s c1 with
              | none => rw [h2] at h; exact Option.noConfusion h
              | some x2 =>
                rw [h2] at h
                cases x2 with
                | error e => exact absurd h (by simp)
                | ok p2 =>
                  obtain ⟨r2, s2, c2, d2⟩ := p2
                  obtain ⟨gnd2, grk2, gnone2, gsome2, gmono2⟩ := ihg right c1 r2 s2 c2 d2 h2
                  try dsimp only at h
                  by_cases hr : r2 < 16
                  case neg => rw [if_neg hr] at h; exact absurd h (by simp)
                  rw [if_pos hr] at h
                  simp only [Option.some.injEq, Except.ok.injEq, Prod.mk.injEq] at h
                  obtain ⟨-, -, hcc, hdd⟩ := h
                  subst hcc
                  subst hdd
                  have hmemL : left ∈ (Operation.lshift left right).refTerms → rank left < rank w0 :=
                    fun hm => hrank w0 (Operation.lshift left right) hop left hm
                  have hmemR : right ∈ (Operation.lshift left right).refTerms → rank right < rank w0 :=
                    fun hm => hrank w0 (Operation.lshift left right) hop right hm
                  refine ⟨⟨d1 ++ d2, rfl, ?_, ?_, ?_, ?_⟩, fun w u hu => gmono2 w u (gmono w u hu)⟩
                  · rw [List.nodup_append]
                    refine ⟨gnd, gnd2, ?_⟩
                    intro a ha ha2
                    have h3 := gsome a ha
                    have h4 := gnone2 a ha2
                    rw [h4] at h3
                    exact Bool.noConfusion h3
                  · intro w hw
                    rcases List.mem_append.mp hw with hw1 | hw2
                    · obtain ⟨hle, hpn⟩ := grk w hw1
                      exact Nat.lt_of_le_of_lt hle (hmemL
                        (by simp [Operation.refTerms, Operation.terms, hpn]))
                    · obtain ⟨hle, hpn⟩ := grk2 w hw2
                      exact Nat.lt_of_le_of_lt hle (hmemR
                        (by simp [Operation.refTerms, Operation.terms, hpn]))
                  · intro w hw
                    rcases List.mem_append.mp hw with hw1 | hw2
                    · exact gnone w hw1
                    · cases hcw : c.lookup w with
                      | none => rfl
                      | some u =>
                        have := gmono w u hcw
                        rw [gnone2 w hw2] at this
                        exact Option.noConfusion this
                  · intro w hw
                    rcases List.mem_append.mp hw with hw1 | hw2
                    · obtain ⟨u, hu⟩ := Option.isSome_iff_exists.mp (gsome w hw1)
                      rw [Option.isSome_iff_exists]
                      exact ⟨u, gmono2 w u hu⟩
                    · exact gsome2 w hw2
        | rshift left right =>
          try dsimp only at h
          cases h1 : getTermInstr fuel left s c with
          | none => rw [h1] at h; exact Option.noConfusion h
          | some x =>
            rw [h1] at h
            cases x with
            | error e => exact absurd h (by simp)
            | ok p =>
              obtain ⟨l, s1, c1, d1⟩ := p
              obtain ⟨gnd, grk, gnone, gsome, gmono⟩ := ihg left c l s1 c1 d1 h1
              have hs1 : s1 = s := (instrFrame fuel).2.2 left s c l s1 c1 d1 h1
              rw [hs1] at h
              try dsimp only at h
              cases h2 : getTermInstr fuel right s c1 with
              | none => rw [h2] at h; exact Option.noConfusion h
              | some x2 =>
                rw [h2] at h
                cases x2 with
                | error e => exact absurd h (by simp)
                | ok p2 =>
                  obtain ⟨r2, s2, c2, d2⟩ := p2
                  obtain ⟨gnd2, grk2, gnone2, gsome2, gmono2⟩ := ihg right c1 r2 s2 c2 d2 h2
                  try dsimp only at h
                  by_cases hr : r2 < 16
                  case neg => rw [if_neg hr] at h; exact absurd h (by simp)
                  rw [if_pos hr] at h
                  simp only [Option.some.injEq, Except.ok.injEq, Prod.mk.injEq] at h
                  obtain ⟨-, -, hcc, hdd⟩ := h
                  subst hcc
                  subst hdd
                  have hmemL : left ∈ (Operation.rshift left right).refTerms → rank left < rank w0 :=
                    fun hm => hrank w0 (Operation.rshift left right) hop left hm
                  have hmemR : right ∈ (Operation.rshift left right).refTerms → rank right < rank w0 :=
                    fun hm => hrank w0 (Operation.rshift left right) hop right hm
                  refine ⟨⟨d1 ++ d2, rfl, ?_, ?_, ?_, ?_⟩, fun w u hu => gmono2 w u (gmono w u hu)⟩
                  · rw [List.nodup_append]
                    refine ⟨gnd, gnd2, ?_⟩
                    intro a ha ha2
                    have h3 := gsome a ha
                    have h4 := gnone2 a ha2
                    rw [h4] at h3
                    exact Bool.noConfusion h3
                  · intro w hw
                    rcases List.mem_append.mp hw with hw1 | hw2
                    · obtain ⟨hle, hpn⟩ := grk w hw1
                      exact Nat.lt_of_le_of_lt hle (hmemL
                        (by simp [Operation.refTerms, Operation.terms, hpn]))
                    · obtain ⟨hle, hpn⟩ := grk2 w hw2
                      exact Nat.lt_of_le_of_lt hle (hmemR
                        (by simp [Operation.refTerms, Operation.terms, hpn]))
                  · intro w hw
                    rcases List.mem_append.mp hw with hw1 | hw2
                    · exact gnone w hw1
                    · cases hcw : c.lookup w with
                      | none => rfl
                      | some u =>
                        have := gmono w u hcw
                        rw [gnone2 w hw2] at this
                        exact Option.noConfusion this
                  · intro w hw
                    rcases List.mem_append.mp hw with hw1 | hw2
                    · obtain ⟨u, hu⟩ := Option.isSome_iff_exists.mp (gsome w hw1)
                      rw [Option.isSome_iff_exists]
                      exact ⟨u, gmono2 w u hu⟩
                    · exact gsome2 w hw2
    · intro t c v s' c' d h
      simp only [getTermInstr] at h
      cases hp : parseU16 t with
      | some v0 =>
        rw [hp] at h
        simp only [Option.some.injEq, Except.ok.injEq, Prod.mk.injEq] at h
        obtain ⟨-, -, hcc, hdd⟩ := h
        subst hcc
        subst hdd
        exact ⟨List.nodup_nil, fun w hw => absurd hw (List.not_mem_nil w),
          fun w hw => absurd hw (List.not_mem_nil w),
          fun w hw => absurd hw (List.not_mem_nil w), fun w u hu => hu⟩
      | none =>
        rw [hp] at h
        obtain ⟨hnd, hrk, hnone, hsome, hmono⟩ := ihd t c v s' c' d h
        exact ⟨hnd, fun w hw => ⟨hrk w hw, rfl⟩, hnone, hsome, hmono⟩

theorem terminationPack (s : Store) (rank : String → Nat)
    (hrank : RankedStore s rank) (hclosed : ClosedStore s) (hshift : ShiftSafe s) :
    ∀ n : Nat, ∀ t : String, rank t ≤ n → (s.lookup t).isSome →
      ∀ (c : Cache) (fuel : Nat), 3 * n + 3 ≤ fuel →
        ∃ v c', determine_target_wire_value_recursive fuel t s c = some (Except.ok (v, c')) := by
  intro n
  induction n using Nat.strong_induction_on with
  | _ n ihn =>
    intro t hrle hsome c fuel hfuel
    obtain ⟨f, rfl⟩ : ∃ f, fuel = f + 1 := ⟨fuel - 1, by omega⟩
    cases hl : c.lookup t with
    | some v => exact ⟨v, c, by simp only [determine_target_wire_value_recursive, hl]⟩
    | none =>
      obtain ⟨op, hop⟩ := Option.isSome_iff_exists.mp hsome
      obtain ⟨g, rfl⟩ : ∃ g, f = g + 1 := ⟨f - 1, by omega⟩
      obtain ⟨k, rfl⟩ : ∃ k, g = k + 1 := ⟨g - 1, by omega⟩
      have hterm : ∀ term ∈ op.refTerms, ∀ (c2 : Cache) (m : Nat), 3 * n ≤ m →
          ∃ v c2', determine_target_wire_value_recursive m term s c2 =
            some (Except.ok (v, c2')) := by
        intro term hmem c2 m hm
        have hlt : rank term < n := Nat.lt_of_lt_of_le (hrank t op hop term hmem) hrle
        have hsome2 : (s.lookup term).isSome := hclosed t op hop term hmem
        exact ihn (rank term) hlt term (Nat.le_refl _) hsome2 c2 m (by omega)
      have hget : ∀ term ∈ op.terms, ∀ (c2 : Cache) (m : Nat), 3 * n ≤ m →
          ∃ v c2', get_term_value (m + 1) term s c2 = some (Except.ok (v, c2')) := by
        intro term hmem c2 m hm
        cases hp : parseU16 term with
        | some v => exact ⟨v, c2, by simp only [get_term_value, hp]⟩
        | none =>
          have hmem2 : term ∈ op.refTerms := by
            simp [Operation.refTerms, List.mem_filter, hmem, hp]
          obtain ⟨v, c2', hd⟩ := hterm term hmem2 c2 m hm
          refine ⟨v, c2', ?_⟩
          simp only [get_term_value, hp]
          exact hd
      have hevalex : ∃ v wv, evaluate_wire_value (k + 1 + 1) s t c =
          some (Except.ok (v, wv)) := by
        cases op with
        | value left =>
          obtain ⟨v1, c1, h1⟩ := hget left (by simp [Operation.terms]) c k (by omega)
          exact ⟨v1, c1, by simp only [evaluate_wire_value, hop, h1]⟩
        | not left =>
          obtain ⟨v1, c1, h1⟩ := hget left (by simp [Operation.terms]) c k (by omega)
          refine ⟨v1 ^^^ 65535, c1, ?_⟩
          simp only [evaluate_wire_value, hop, h1]
        | and left right =>
          obtain ⟨v1, c1, h1⟩ := hget left (by simp [Operation.terms]) c k (by omega)
          obtain ⟨v2, c2, h2⟩ := hget right (by simp [Operation.terms]) c1 k (by omega)
          refine ⟨v1 &&& v2, c2, ?_⟩
          simp only [evaluate_wire_value, hop, h1]
          try dsimp only
          simp only [h2]
        | or left right =>
          obtain ⟨v1, c1, h1⟩ := hget left (by simp [Operation.terms]) c k (by omega)
          obtain ⟨v2, c2, h2⟩ := hget right (by simp [Operation.terms]) c1 k (by omega)
          refine ⟨v1 ||| v2, c2, ?_⟩
          simp only [evaluate_wire_value, hop, h1]
          try dsimp only
          simp only [h2]
        | lshift left right =>
          obtain ⟨v1, c1, h1⟩ := hget left (by simp [Operation.terms]) c k (by omega)
          obtain ⟨v2, c2, h2⟩ := hget right (by simp [Operation.terms]) c1 k (by omega)
          have hv2 : v2 < 16 := hshift t left right (Or.inl hop) (k + 1) c1 v2 c2 h2
          refine ⟨(v1 <<< v2) % 65536, c2, ?_⟩
          simp only [evaluate_wire_value, hop, h1]
          try dsimp only
          simp only [h2]
          rw [if_pos hv2]
        | rshift left right =>
          obtain ⟨v1, c1, h1⟩ := hget left (by simp [Operation.terms]) c k (by omega)
          obtain ⟨v2, c2, h2⟩ := hget right (by simp [Operation.terms]) c1 k (by omega)
          have hv2 : v2 < 16 := hshift t left right (Or.inr hop) (k + 1) c1 v2 c2 h2
          refine ⟨v1 >>> v2, c2, ?_⟩
          simp only [evaluate_wire_value, hop, h1]
          try dsimp only
          simp only [h2]
          rw [if_pos hv2]
      obtain ⟨v0, wv, heval⟩ := hevalex
      refine ⟨v0, (t, v0) :: wv, ?_⟩
      simp only [determine_target_wire_value_recursive, hl, heval]

theorem digitChar_spec {d : Nat} (h : d < 10) :
    (Nat.digitChar d).isDigit = true ∧ charDigitVal (Nat.digitChar d) = d ∧
      ¬ Nat.digitChar d = '+' := by
  interval_cases d <;> exact ⟨by decide, by decide, by decide⟩

theorem toDigitsCore_eq_decDigits (fuel : Nat) :
    ∀ (n : Nat) (acc : List Char), n < fuel →
      Nat.toDigitsCore 10 fuel n acc = decDigits n ++ acc := by
  induction fuel with
  | zero => intro n acc h; omega
  | succ fuel ih =>
    intro n acc h
    simp only [Nat.toDigitsCore]
    by_cases h10 : n / 10 = 0
    · rw [if_pos h10]
      have hn : n < 10 := by omega
      rw [decDigits, if_pos hn, Nat.mod_eq_of_lt hn]
      rfl
    · rw [if_neg h10]
      have hge : 10 ≤ n := by
        by_contra hcon
        exact h10 (Nat.div_eq_of_lt (by omega))
      have hlt : n / 10 < fuel := by
        have := Nat.div_lt_self (by omega : 0 < n) (by omega : 1 < 10)
        omega
      rw [decDigits, if_neg (by omega : ¬ n < 10)]
      rw [ih (n / 10) (Nat.digitChar (n % 10) :: acc) hlt]
      simp [List.append_assoc]

theorem decDigits_spec : ∀ n : Nat,
    decDigits n ≠ [] ∧ (decDigits n).all Char.isDigit = true ∧
      ∀ a : Nat, decValFold (decDigits n) a = a * 10 ^ (decDigits n).length + n := by
  intro n
  induction n using Nat.strong_induction_on with
  | _ n ih =>
    by_cases h : n < 10
    · obtain ⟨hd, hv, hplus⟩ := digitChar_spec h
      rw [decDigits, if_pos h]
      refine ⟨by simp, by simp [hd], ?_⟩
      intro a
      simp [decValFold, hv]
    · have hlt : n / 10 < n := Nat.div_lt_self (by omega) (by omega)
      obtain ⟨hne, hdig, hval⟩ := ih (n / 10) hlt
      obtain ⟨hd, hv, hplus⟩ := digitChar_spec (Nat.mod_lt n (by omega) : n % 10 < 10)
      rw [decDigits, if_neg h]
      refine ⟨by simp, ?_, ?_⟩
      · simp only [List.all_append, hdig, Bool.true_and, List.all_cons, List.all_nil, hd,
          Bool.and_true]
      · intro a
        have hfold : decValFold (decDigits (n / 10) ++ [Nat.digitChar (n % 10)]) a =
            decValFold (decDigits (n / 10)) a * 10 + charDigitVal (Nat.digitChar (n % 10)) := by
          simp [decValFold, List.foldl_append]
        rw [hfold, hval a, hv]
        have hdm : 10 * (n / 10) + n % 10 = n := Nat.div_add_mod n 10
        have hlen : (decDigits (n / 10) ++ [Nat.digitChar (n % 10)]).length =
            (decDigits (n / 10)).length + 1 := by simp
        rw [hlen, pow_succ, ← Nat.mul_assoc]
        omega

theorem repr_data_eq (v : Nat) : (Nat.repr v).data = decDigits v := by
  show (Nat.toDigits 10 v).asString.data = decDigits v
  rw [Nat.toDigits]
  rw [toDigitsCore_eq_decDigits (v + 1) v [] (Nat.lt_succ_self v)]
  simp [List.asString]

theorem parseU16_repr {v : Nat} (h : v < 65536) : parseU16 (Nat.repr v) = some v := by
  obtain ⟨hne, hdig, hval⟩ := decDigits_spec v
  have hdata := repr_data_eq v
  obtain ⟨c, rest, hcons⟩ : ∃ c rest, decDigits v = c :: rest := by
    cases hdd : decDigits v with
    | nil => exact absurd hdd hne
    | cons c rest => exact ⟨c, rest, rfl⟩
  have hcd : c.isDigit = true := by
    rw [hcons] at hdig
    simp only [List.all_cons, Bool.and_eq_true] at hdig
    exact hdig.1
  have hcp : ¬ c = '+' := by
    intro hcp
    rw [hcp] at hcd
    exact Bool.noConfusion hcd
  have hv0 : decValFold (decDigits v) 0 = v := by
    rw [hval 0]
    simp
  simp only [parseU16, hdata, hcons]
  rw [if_neg hcp]
  rw [← hcons, hv0]
  rw [if_neg (by rw [hcons]; simp : ¬ decDigits v = [])]
  rw [if_pos hdig, if_pos h]

theorem parseU16_digits_overflow {t : String} (hne : t.data ≠ [])
    (hdig : t.data.all Char.isDigit = true) (hval : 65536 ≤ decValFold t.data 0) :
    parseU16 t = none := by
  obtain ⟨c, rest, hcons⟩ : ∃ c rest, t.data = c :: rest := by
    cases hdd : t.data with
    | nil => exact absurd hdd hne
    | cons c rest => exact ⟨c, rest, rfl⟩
  have hcd : c.isDigit = true := by
    rw [hcons] at hdig
    simp only [List.all_cons, Bool.and_eq_true] at hdig
    exact hdig.1
  have hcp : ¬ c = '+' := by
    intro hcp
    rw [hcp] at hcd
    exact Bool.noConfusion hcd
  simp only [parseU16, hcons]
  rw [if_neg hcp, ← hcons]
  rw [if_neg (by rw [hcons]; simp : ¬ t.data = [])]
  rw [if_pos hdig, if_neg (by omega : ¬ decValFold t.data 0 < 65536)]

theorem lookup_mem {β : Type} {w : String} {v : β} :
    ∀ {l : List (String × β)}, List.lookup w l = some v → (w, v) ∈ l := by
  intro l
  induction l with
  | nil => intro h; exact Option.noConfusion h
  | cons p tail ih =>
    obtain ⟨k, b⟩ := p
    intro h
    simp only [List.lookup] at h
    cases hb : (w == k) with
    | true =>
      rw [hb] at h
      have hkv : b = v := by injection h
      have hwk : w = k := eq_of_beq hb
      subst hkv
      subst hwk
      exact List.mem_cons_self _ _
    | false =>
      rw [hb] at h
      exact List.mem_cons_of_mem _ (ih h)

theorem rankedStore_of_pairs {s : Store} {rank : String → Nat}
    (h : ∀ p ∈ s, ∀ t ∈ Operation.refTerms p.2, rank t < rank p.1) : RankedStore s rank :=
  fun w op hw t ht => h (w, op) (lookup_mem hw) t ht

theorem closedStore_of_pairs {s : Store}
    (h : ∀ p ∈ s, ∀ t ∈ Operation.refTerms p.2, (s.lookup t).isSome) : ClosedStore s :=
  fun w op hw t ht => h (w, op) (lookup_mem hw) t ht

theorem getTerm_literal_det {term : String} {v : Nat} (hp : parseU16 term = some v) :
    ∀ {fuel : Nat} {s : Store} {c : Cache} {k : Nat} {c2 : Cache},
      get_term_value fuel term s c = some (Except.ok (k, c2)) → k = v := by
  intro fuel s c k c2 h
  cases fuel with
  | zero => exact Option.noConfusion h
  | succ f =>
    simp only [get_term_value, hp] at h
    simp only [Option.some.injEq, Except.ok.injEq, Prod.mk.injEq] at h
    exact h.1.symm

/-- C1: Operator semantics: with the operands of a wire resolving to values
`a` (and `b`), evaluating the wire computes Value as passthrough, And/Or as
bitwise AND/OR, LShift/RShift as 16-bit shifts of `a` by `b`, and Not as the
16-bit-masked complement of `a` (in `[0, 65535]` when `a` is); on literal
operands, And(123,456) = 72, Or(123,456) = 507, LShift(123,2) = 492,
RShift(456,2) = 114 and Not(123) = 65412. -/
theorem claim1_operator_semantics (fuel : Nat) (wire_ops : Store) (wire : String)
    (wire_values : Cache) :
    (∀ l a c1, wire_ops.lookup wire = some (Operation.value l) →
      get_term_value fuel l wire_ops wire_values = some (Except.ok (a, c1)) →
      evaluate_wire_value (fuel + 1) wire_ops wire wire_values = some (Except.ok (a, c1))) ∧
    (∀ l r a b c1 c2, wire_ops.lookup wire = some (Operation.and l r) →
      get_term_value fuel l wire_ops wire_values = some (Except.ok (a, c1)) →
      get_term_value fuel r wire_ops c1 = some (Except.ok (b, c2)) →
      evaluate_wire_value (fuel + 1) wire_ops wire wire_values =
        some (Except.ok (a &&& b, c2))) ∧
    (∀ l r a b c1 c2, wire_ops.lookup wire = some (Operation.or l r) →
      get_term_value fuel l wire_ops wire_values = some (Except.ok (a, c1)) →
      get_term_value fuel r wire_ops c1 = some (Except.ok (b, c2)) →
      evaluate_wire_value (fuel + 1) wire_ops wire wire_values =
        some (Except.ok (a ||| b, c2))) ∧
    (∀ l r a b c1 c2, wire_ops.lookup wire = some (Operation.lshift l r) →
      get_term_value fuel l wire_ops wire_values = some (Except.ok (a, c1)) →
      get_term_value fuel r wire_ops c1 = some (Except.ok (b, c2)) → b < 16 →
      evaluate_wire_value (fuel + 1) wire_ops wire wire_values =
        some (Except.ok ((a <<< b) % 65536, c2))) ∧
    (∀ l r a b c1 c2, wire_ops.lookup wire = some (Operation.rshift l r) →
      get_term_value fuel l wire_ops wire_values = some (Except.ok (a, c1)) →
      get_term_value fuel r wire_ops c1 = some (Except.ok (b, c2)) → b < 16 →
      evaluate_wire_value (fuel + 1) wire_ops wire wire_values =
        some (Except.ok (a >>> b, c2))) ∧
    (∀ l a c1, wire_ops.lookup wire = some (Operation.not l) →
      get_term_value fuel l wire_ops wire_values = some (Except.ok (a, c1)) →
      evaluate_wire_value (fuel + 1) wire_ops wire wire_values =
        some (Except.ok (a ^^^ 65535, c1)) ∧ (a < 65536 → a ^^^ 65535 < 65536)) ∧
    (evaluate_wire_value 2 [(("g"), Operation.and ("123") ("456"))] ("g") [] =
        some (Except.ok (72, [])) ∧
      evaluate_wire_value 2 [(("g"), Operation.or ("123") ("456"))] ("g") [] =
        some (Except.ok (507, [])) ∧
      evaluate_wire_value 2 [(("g"), Operation.lshift ("123") ("2"))] ("g") [] =
        some (Except.ok (492, [])) ∧
      evaluate_wire_value 2 [(("g"), Operation.rshift ("456") ("2"))] ("g") [] =
        some (Except.ok (114, [])) ∧
      evaluate_wire_value 2 [(("g"), Operation.not ("123"))] ("g") [] =
        some (Except.ok (65412, []))) := by
  refine ⟨?_, ?_, ?_, ?_, ?_, ?_, rfl, rfl, rfl, rfl, rfl⟩
  · intro l a c1 hop h1
    simp only [evaluate_wire_value, hop, h1]
  · intro l r a b c1 c2 hop h1 h2
    simp only [evaluate_wire_value, hop, h1]
    try dsimp only
    simp only [h2]
  · intro l r a b c1 c2 hop h1 h2
    simp only [evaluate_wire_value, hop, h1]
    try dsimp only
    simp only [h2]
  · intro l r a b c1 c2 hop h1 h2 hlt
    simp only [evaluate_wire_value, hop, h1]
    try dsimp only
    simp only [h2]
    rw [if_pos hlt]
  · intro l r a b c1 c2 hop h1 h2 hlt
    simp only [evaluate_wire_value, hop, h1]
    try dsimp only
    simp only [h2]
    rw [if_pos hlt]
  · intro l a c1 hop h1
    refine ⟨?_, fun ha => u16_xor ha (by norm_num)⟩
    simp only [evaluate_wire_value, hop, h1]

/-- Witness for C1: instantiate the And clause on a concrete one-wire store
with literal operands 3 and 5, giving 3 AND 5 = 1. -/
theorem claim1_operator_semantics_witness :
    evaluate_wire_value 2 [(("w"), Operation.and ("3") ("5"))] ("w") [] =
      some (Except.ok (1, [])) := by
  have h := (claim1_operator_semantics 1 [(("w"), Operation.and ("3") ("5"))] ("w") []).2.1
  exact h ("3") ("5") 3 5 [] [] rfl rfl rfl

/-- C7: Shift safety: when the shift-amount operand resolves to a value below
16, evaluating LShift and RShift never aborts: it returns the native 16-bit
shift of the first operand, and the shift-overflow failure branch is not
taken. -/
theorem claim7_shift_safety (fuel : Nat) (wire_ops : Store) (wire : String)
    (wire_values : Cache) (l r : String) (a b : Nat) (c1 c2 : Cache)
    (ha : get_term_value fuel l wire_ops wire_values = some (Except.ok (a, c1)))
    (hb : get_term_value fuel r wire_ops c1 = some (Except.ok (b, c2)))
    (hlt : b < 16) :
    (wire_ops.lookup wire = some (Operation.lshift l r) →
      evaluate_wire_value (fuel + 1) wire_ops wire wire_values =
        some (Except.ok ((a <<< b) % 65536, c2))) ∧
    (wire_ops.lookup wire = some (Operation.rshift l r) →
      evaluate_wire_value (fuel + 1) wire_ops wire wire_values =
        some (Except.ok (a >>> b, c2))) := by
  constructor <;> intro hop <;>
    · simp only [evaluate_wire_value, hop, ha]
      try dsimp only
      simp only [hb]
      rw [if_pos hlt]

/-- Witness for C7: LShift(123, 2) on a concrete store evaluates to 492. -/
theorem claim7_shift_safety_witness :
    evaluate_wire_value 2 [(("s"), Operation.lshift ("123") ("2"))] ("s") [] =
      some (Except.ok (492, [])) := by
  have h := (claim7_shift_safety 1 [(("s"), Operation.lshift ("123") ("2"))] ("s") []
    ("123") ("2") 123 2 [] [] rfl rfl (by norm_num)).1
  exact h rfl

/-- C8: Operand resolution: a term parsing as a `u16` yields that value with
the cache untouched; a non-literal term is resolved through the cache — a hit
returns the cached value with the cache unchanged, and a miss evaluates the
wire and stores the result in the cache before returning. -/
theorem claim8_operand_resolution (fuel : Nat) (term : String) (wires : Store)
    (wire_values : Cache) :
    (∀ v, parseU16 term = some v →
      get_term_value (fuel + 1) term wires wire_values =
        some (Except.ok (v, wire_values))) ∧
    (parseU16 term = none →
      (∀ v, wire_values.lookup term = some v →
        get_term_value (fuel + 1 + 1) term wires wire_values =
          some (Except.ok (v, wire_values))) ∧
      (wire_values.lookup term = none →
        ∀ v c', evaluate_wire_value fuel wires term wire_values = some (Except.ok (v, c')) →
          get_term_value (fuel + 1 + 1) term wires wire_values =
            some (Except.ok (v, (term, v) :: c')) ∧
          ((term, v) :: c').lookup term = some v)) := by
  refine ⟨?_, ?_⟩
  · intro v hp
    simp only [get_term_value, hp]
  · intro hp
    refine ⟨?_, ?_⟩
    · intro v hl
      simp only [get_term_value, hp, determine_target_wire_value_recursive, hl]
    · intro hl v c' he
      refine ⟨?_, ?_⟩
      · simp only [get_term_value, hp, determine_target_wire_value_recursive, hl]
        try dsimp only
        simp only [he]
      · rw [lookup_cons, if_pos rfl]

/-- Witness for C8: term `z` is not a literal; on a fresh cache it is
evaluated through the store `z -> 9` and the result is recorded in the
cache. -/
theorem claim8_operand_resolution_witness :
    get_term_value 4 ("z") [(("z"), Operation.value ("9"))] [] =
      some (Except.ok (9, [(("z"), 9)])) ∧
    List.lookup ("z") [(("z"), 9)] = some 9 := by
  have h := ((claim8_operand_resolution 2 ("z") [(("z"), Operation.value ("9"))] []).2
    rfl).2 rfl 9 [] rfl
  exact h

/-- C10: Numeric-name shadowing: an operand term that parses as a `u16` is
returned directly for every store and cache — even when the store has an
entry under that exact string, which is therefore unreachable through operand
references — while an all-digit term whose value exceeds 65535 fails to parse
and is treated as a wire name, hitting the fatal missing-definition path when
absent from store and cache. -/
theorem claim10_numeric_shadowing :
    (∀ (term : String) (v : Nat), parseU16 term = some v →
      ∀ (fuel : Nat) (wires : Store) (wire_values : Cache),
        get_term_value (fuel + 1) term wires wire_values =
          some (Except.ok (v, wire_values))) ∧
    (∀ term : String, term.data ≠ [] → term.data.all Char.isDigit = true →
      65536 ≤ decValFold term.data 0 →
      parseU16 term = none ∧
      ∀ (fuel : Nat) (wires : Store) (wire_values : Cache),
        wires.lookup term = none → wire_values.lookup term = none →
        get_term_value (fuel + 1 + 1 + 1) term wires wire_values =
          some (Except.error (EvalErr.missingDefinition term))) := by
  refine ⟨?_, ?_⟩
  · intro term v hp fuel wires wire_values
    simp only [get_term_value, hp]
  · intro term hne hdig hval
    have hp : parseU16 term = none := parseU16_digits_overflow hne hdig hval
    refine ⟨hp, ?_⟩
    intro fuel wires wire_values hws hwv
    simp only [get_term_value, hp, determine_target_wire_value_recursive, hwv,
      evaluate_wire_value, hws]

/-- Witness for C10: the literal term `123` resolves to 123 even in a store
with an entry keyed `123`, and the numeric term `70000` (above 65535) hits
the missing-definition path. -/
theorem claim10_numeric_shadowing_witness :
    get_term_value 1 ("123") [(("123"), Operation.value ("77"))] [] =
      some (Except.ok (123, [])) ∧
    get_term_value 3 ("70000") [] [] =
      some (Except.error (EvalErr.missingDefinition ("70000"))) := by
  constructor
  · exact claim10_numeric_shadowing.1 ("123") 123 (by decide) 0
      [(("123"), Operation.value ("77"))] []
  · exact (claim10_numeric_shadowing.2 ("70000") (by decide) (by decide) (by decide)).2 0
      [] [] rfl rfl

/-- C2: Memoization: in one instrumented resolution pass over a ranked
(acyclic) store starting from a fresh cache, the list of wires whose Operation
was evaluated has no duplicates (each distinct output evaluated at most once),
and re-resolving the same target against the resulting cache returns the same
value with an empty evaluation trace (zero additional Operation evaluations)
and an unchanged cache. -/
theorem claim2_memoization (wire_ops : Store) (rank : String → Nat)
    (hrank : RankedStore wire_ops rank) (fuel : Nat) (target : String) (v : Nat)
    (ops' : Store) (cache' : Cache) (d : List String)
    (h : determineInstr fuel target wire_ops [] = some (Except.ok (v, ops', cache', d))) :
    d.Nodup ∧
    ∀ fuel' : Nat, determineInstr (fuel' + 1) target ops' cache' =
      some (Except.ok (v, ops', cache', [])) := by
  refine ⟨((nodupPack wire_ops rank hrank fuel).1 target [] v ops' cache' d h).1, ?_⟩
  intro fuel'
  exact detInstr_cache_hit fuel' target ops' cache' v (detInstr_records h)

/-- Witness for C2: resolving wire `d` in the three-wire store evaluates
`d`, `x`, `y` exactly once each, and a second resolution of `d` against the
resulting cache is a pure cache hit. -/
theorem claim2_memoization_witness :
    ([("d"), ("x"), ("y")] : List String).Nodup ∧
    ∀ fuel' : Nat,
      determineInstr (fuel' + 1) ("d")
        [(("d"), Operation.and ("x") ("y")), (("x"), Operation.value ("123")),
          (("y"), Operation.value ("456"))]
        [(("d"), 72), (("y"), 456), (("x"), 123)] =
      some (Except.ok (72,
        [(("d"), Operation.and ("x") ("y")), (("x"), Operation.value ("123")),
          (("y"), Operation.value ("456"))],
        [(("d"), 72), (("y"), 456), (("x"), 123)], [])) :=
  claim2_memoization
    [(("d"), Operation.and ("x") ("y")), (("x"), Operation.value ("123")),
      (("y"), Operation.value ("456"))]
    (fun w => if w = ("d") then 1 else 0)
    (rankedStore_of_pairs (by decide)) 9 ("d") 72
    [(("d"), Operation.and ("x") ("y")), (("x"), Operation.value ("123")),
      (("y"), Operation.value ("456"))]
    [(("d"), 72), (("y"), 456), (("x"), 123)] [("d"), ("x"), ("y")] rfl

/-- C3: Determinism: two independent resolution passes, each with a fresh
cache and arbitrary fuel, that both terminate with a value on the same store
and target return the same value and the same final cache. -/
theorem claim3_determinism (wire_ops : Store) (target : String) (f1 f2 : Nat)
    (v1 v2 : Nat) (c1 c2 : Cache)
    (h1 : determine_target_wire_value f1 target wire_ops = some (Except.ok (v1, c1)))
    (h2 : determine_target_wire_value f2 target wire_ops = some (Except.ok (v2, c2))) :
    v1 = v2 ∧ c1 = c2 := by
  simp only [determine_target_wire_value] at h1 h2
  rcases Nat.le_total f1 f2 with hle | hle
  · have h3 := (fuelMono f1 f2 hle).1 target wire_ops [] (Except.ok (v1, c1)) h1
    rw [h2] at h3
    simp only [Option.some.injEq, Except.ok.injEq, Prod.mk.injEq] at h3
    exact ⟨h3.1.symm, h3.2.symm⟩
  · have h3 := (fuelMono f2 f1 hle).1 target wire_ops [] (Except.ok (v2, c2)) h2
    rw [h1] at h3
    simp only [Option.some.injEq, Except.ok.injEq, Prod.mk.injEq] at h3
    exact ⟨h3.1, h3.2⟩

/-- Witness for C3: two passes with fuels 5 and 9 on a one-wire store agree. -/
theorem claim3_determinism_witness :
    (8 : Nat) = 8 ∧ ([(("k"), 8)] : Cache) = [(("k"), 8)] :=
  claim3_determinism [(("k"), Operation.value ("8"))] ("k") 5 9 8 8
    [(("k"), 8)] [(("k"), 8)] rfl rfl

/-- C4 (amended): if the target reaches, directly or transitively through
wire-name operands, a name with no store entry, then any terminating
resolution outcome is an error signal — never a value. -/
theorem claim4_missing_fatal (wire_ops : Store) (target : String)
    (hmiss : ReachesMissing wire_ops target) (fuel : Nat)
    (r : Except EvalErr (Nat × Cache))
    (h : determine_target_wire_value fuel target wire_ops = some r) :
    ∃ e : EvalErr, r = Except.error e := by
  cases r with
  | error e => exact ⟨e, rfl⟩
  | ok p =>
    obtain ⟨v, c'⟩ := p
    simp only [determine_target_wire_value] at h
    have hnr := ((goodPack fuel).1 target wire_ops [] v c' (goodCache_nil wire_ops) h).1
    exact absurd hmiss hnr

/-- Witness for C4: wire `a` references the missing wire `z`; the pass
terminates with the missing-definition panic. -/
theorem claim4_missing_fatal_witness :
    ∃ e : EvalErr,
      (Except.error (EvalErr.missingDefinition ("z")) : Except EvalErr (Nat × Cache)) =
        Except.error e :=
  claim4_missing_fatal [(("a"), Operation.value ("z"))] ("a")
    (ReachesMissing.step ("a") (Operation.value ("z")) ("z") rfl (by decide)
      (ReachesMissing.here ("z") rfl)) 5
    (Except.error (EvalErr.missingDefinition ("z"))) rfl

/-- Counterexample for C4 as stated: in the store `a = d AND w; d = 5 LSHIFT
16` the target `a` transitively references the missing wire `w`, yet the pass
aborts with the shift-overflow panic — a signal other than
MissingDefinition — because the left operand chain fails first. -/
theorem claim4_counterexample :
    ReachesMissing [(("a"), Operation.and ("d") ("w")),
      (("d"), Operation.lshift ("5") ("16"))] ("a") ∧
    determine_target_wire_value 10 ("a")
      [(("a"), Operation.and ("d") ("w")), (("d"), Operation.lshift ("5") ("16"))] =
      some (Except.error EvalErr.shiftOverflow) := by
  refine ⟨?_, rfl⟩
  exact ReachesMissing.step ("a") (Operation.and ("d") ("w")) ("w") rfl (by decide)
    (ReachesMissing.here ("w") rfl)

/-- C5: Two-pass override: when the first pass on `a` yields V, `solve_part2`
is exactly a second, fresh-cache resolution of `a` against the store in which
`b` is re-bound to the literal `V`; the override value V fits in 16 bits and
resolving `b` in the new store yields V back. -/
theorem claim5_two_pass (wire_ops : Store) (fuel : Nat) (V : Nat) (c : Cache)
    (h : determine_target_wire_value fuel ("a") wire_ops = some (Except.ok (V, c))) :
    solve_part2 fuel wire_ops =
      determine_target_wire_value_recursive fuel ("a")
        ((("b"), Operation.value (Nat.repr V)) :: wire_ops) [] ∧
    V < 65536 ∧
    ∀ fuel' : Nat,
      determine_target_wire_value (fuel' + 1 + 1 + 1) ("b")
        ((("b"), Operation.value (Nat.repr V)) :: wire_ops) =
        some (Except.ok (V, [(("b"), V)])) := by
  have hVb : V < 65536 := by
    have h2 := h
    simp only [determine_target_wire_value] at h2
    exact ((boundPack fuel).1 ("a") wire_ops [] V c cacheBounded_nil h2).1
  have hpr : parseU16 (Nat.repr V) = some V := parseU16_repr hVb
  refine ⟨?_, hVb, ?_⟩
  · simp only [solve_part2]
    rw [h]
    try dsimp only
    simp only [determine_target_wire_value]
  · intro fuel'
    have hlb : List.lookup ("b") ((("b"), Operation.value (Nat.repr V)) :: wire_ops) =
        some (Operation.value (Nat.repr V)) := by
      rw [lookup_cons, if_pos rfl]
    have hev : evaluate_wire_value (fuel' + 1 + 1)
        ((("b"), Operation.value (Nat.repr V)) :: wire_ops) ("b") [] =
        some (Except.ok (V, [])) := by
      simp only [evaluate_wire_value, hlb, get_term_value, hpr]
    simp only [determine_target_wire_value, determine_target_wire_value_recursive,
      List.lookup, hev]

/-- Witness for C5: first pass on `a` in `a = 5; b = 2` yields 5, so the
second pass runs against the store with `b` re-bound to the literal 5. -/
theorem claim5_two_pass_witness :
    solve_part2 5 [(("a"), Operation.value ("5")), (("b"), Operation.value ("2"))] =
      determine_target_wire_value_recursive 5 ("a")
        ((("b"), Operation.value (Nat.repr 5)) ::
          [(("a"), Operation.value ("5")), (("b"), Operation.value ("2"))]) [] ∧
    (5 : Nat) < 65536 ∧
    ∀ fuel' : Nat,
      determine_target_wire_value (fuel' + 1 + 1 + 1) ("b")
        ((("b"), Operation.value (Nat.repr 5)) ::
          [(("a"), Operation.value ("5")), (("b"), Operation.value ("2"))]) =
        some (Except.ok (5, [(("b"), 5)])) :=
  claim5_two_pass [(("a"), Operation.value ("5")), (("b"), Operation.value ("2"))] 5 5
    [(("a"), 5)] rfl

/-- C6 (amended): on a store witnessed acyclic by a rank function, with every
wire-name operand present and all shift amounts resolving below 16, a pass
with fuel at least linear in the target rank terminates with a value. -/
theorem claim6_termination (wire_ops : Store) (rank : String → Nat)
    (hrank : RankedStore wire_ops rank) (hclosed : ClosedStore wire_ops)
    (hshift : ShiftSafe wire_ops) (target : String)
    (hsome : (wire_ops.lookup target).isSome = true) (fuel : Nat)
    (hfuel : 3 * rank target + 3 ≤ fuel) :
    ∃ v c', determine_target_wire_value fuel target wire_ops = some (Except.ok (v, c')) := by
  simp only [determine_target_wire_value]
  exact terminationPack wire_ops rank hrank hclosed hshift (rank target) target
    (Nat.le_refl _) hsome [] fuel hfuel

/-- Witness for C6: the acyclic, closed, shift-safe store `a = 5 LSHIFT 2`
resolves with fuel 3. -/
theorem claim6_termination_witness :
    ∃ v c', determine_target_wire_value 3 ("a")
      [(("a"), Operation.lshift ("5") ("2"))] = some (Except.ok (v, c')) := by
  refine claim6_termination [(("a"), Operation.lshift ("5") ("2"))] (fun _ => 0)
    (rankedStore_of_pairs (by decide)) (closedStore_of_pairs (by decide)) ?_ ("a") rfl 3
    (Nat.le_refl 3)
  intro w l r hor fuel c k c2 hget
  rcases hor with hsh | hsh
  · have hm := lookup_mem hsh
    simp only [List.mem_singleton, Prod.mk.injEq] at hm
    obtain ⟨-, hop⟩ := hm
    injection hop with h1 h2
    subst h2
    have hk : k = 2 := getTerm_literal_det (by decide) hget
    omega
  · have hm := lookup_mem hsh
    simp at hm

/-- Counterexample for C6 as stated: the store `a = 5 LSHIFT 16` is acyclic
(rank function exists), closed, and `a` is present, yet every resolution pass
either runs forever (out of fuel at every bound) or aborts with the
shift-overflow panic — it never returns a value. -/
theorem claim6_counterexample :
    (∃ rank : String → Nat,
      RankedStore [(("a"), Operation.lshift ("5") ("16"))] rank) ∧
    ClosedStore [(("a"), Operation.lshift ("5") ("16"))] ∧
    (List.lookup ("a") [(("a"), Operation.lshift ("5") ("16"))]).isSome = true ∧
    ∀ fuel : Nat,
      determine_target_wire_value fuel ("a") [(("a"), Operation.lshift ("5") ("16"))] =
          none ∨
      determine_target_wire_value fuel ("a") [(("a"), Operation.lshift ("5") ("16"))] =
        some (Except.error EvalErr.shiftOverflow) := by
  refine ⟨⟨fun _ => 0, rankedStore_of_pairs (by decide)⟩,
    closedStore_of_pairs (by decide), rfl, ?_⟩
  intro fuel
  match fuel with
  | 0 => exact Or.inl rfl
  | 1 => exact Or.inl rfl
  | 2 => exact Or.inl rfl
  | n + 3 =>
    refine Or.inr ?_
    have h3 : determine_target_wire_value_recursive 3 ("a")
        [(("a"), Operation.lshift ("5") ("16"))] [] =
          some (Except.error EvalErr.shiftOverflow) := rfl
    have hm := (fuelMono 3 (n + 3) (by omega)).1 ("a")
      [(("a"), Operation.lshift ("5") ("16"))] [] (Except.error EvalErr.shiftOverflow) h3
    simpa [determine_target_wire_value] using hm

/-- C9: Frame condition: in the store-threading instrumented semantics, every
terminating resolve call and recursive sub-evaluation returns the Definition
Store it received — the store is never mutated — and projecting the
instrumentation away recovers exactly the plain resolution semantics. -/
theorem claim9_frame (fuel : Nat) (t w : String) (s : Store) (c : Cache) :
    (∀ v s' c' d, determineInstr fuel t s c = some (Except.ok (v, s', c', d)) → s' = s) ∧
    (∀ v s' c' d, evaluateInstr fuel s w c = some (Except.ok (v, s', c', d)) → s' = s) ∧
    (∀ v s' c' d, getTermInstr fuel t s c = some (Except.ok (v, s', c', d)) → s' = s) ∧
    projRes (determineInstr fuel t s c) = determine_target_wire_value_recursive fuel t s c :=
  ⟨fun v s' c' d h => (instrFrame fuel).1 t s c v s' c' d h,
    fun v s' c' d h => (instrFrame fuel).2.1 s w c v s' c' d h,
    fun v s' c' d h => (instrFrame fuel).2.2 t s c v s' c' d h,
    (instrAgree fuel).1 t s c⟩

/-- Witness for C9: a concrete terminating pass hands back its store
unchanged. -/
theorem claim9_frame_witness :
    ([(("k"), Operation.value ("8"))] : Store) = [(("k"), Operation.value ("8"))] :=
  (claim9_frame 5 ("k") ("k") [(("k"), Operation.value ("8"))] []).1 8
    [(("k"), Operation.value ("8"))] [(("k"), 8)] [("k")] rfl

example : parseU16 ("123") = some 123 := by decide
example : parseU16 ("+07") = some 7 := by decide
example : parseU16 ("70000") = none := by decide
example : parseU16 ("ab") = none := by decide
example :
    determine_target_wire_value 9 ("d")
      [(("x"), Operation.value ("123")), (("y"), Operation.value ("456")),
        (("d"), Operation.and ("x") ("y"))] =
      some (Except.ok (72, [(("d"), 72), (("y"), 456), (("x"), 123)])) := rfl

end Day07
